import Mathlib

/-!
Verification of the attendance aggregation and sync engine of the
clockwork repository (src/index.tsx).

Modelling conventions for the shallow embedding:

* Instants (JavaScript `Date` values / ISO timestamp strings) are modelled as
  integers counting milliseconds since the epoch.  The code always compares
  timestamps through `new Date(s).getTime()`, so a timestamp string is
  identified with its parsed millisecond value; where the code validates
  parsing (`isNaN(d.getTime())`) the parser is passed in explicitly as a
  function `String → Option Int`.
* Calendar dates (`YYYY-MM-DD` keys) are modelled as integer day indices
  (days since 1970-01-01); the parsed value of such a key is
  `dayIndex * 86400000` milliseconds.  `Date.getDay` of a day index `d` is
  `(d + 4) % 7` (1970-01-01 was a Thursday), with Sunday = 0 as in JS.
* Hour totals and `ShiftPair.duration` are exact rationals
  (milliseconds divided by 3 600 000), mirroring the arithmetic
  `ms / (1000 * 60 * 60)` of the source.
* JavaScript `Array.prototype.sort` with a numeric comparator is a stable
  ascending sort; it is modelled by `List.insertionSort`, which is stable.
* The locale comparator `localeCompare(·, 'he')` is an external total order
  on strings; definitions that sort with it are parametrised by the order.
-/

namespace Clockwork

/-- The divisor `1000 * 60 * 60` used by the source to turn ms into hours. -/
def msPerHour : Int := 1000 * 60 * 60

/-- Milliseconds in one day, the parse factor for `YYYY-MM-DD` date keys. -/
def msPerDay : Int := 24 * 60 * 60 * 1000

/-- The two actions retained in a `DailyLog` (src/index.tsx `DailyLog`). -/
inductive LogAction where
  | checkin
  | checkout
deriving DecidableEq, Repr

/-- One attendance log entry of a per-employee, per-date group
(src/index.tsx `DailyLog`, timestamp modelled as parsed ms). -/
structure DailyLog where
  action : LogAction
  timestamp : Int
deriving DecidableEq, Repr

/-- A matched shift (src/index.tsx `ShiftPair`); `duration` is in hours. -/
structure ShiftPair where
  checkin : Int
  checkout : Int
  duration : ℚ
deriving DecidableEq, Repr

/-- The mutable locals of the loop in `calculateHoursAndPairs`
(src/index.tsx lines 379-401): accumulated paired milliseconds, the emitted
pairs in chronological order, and the pending check-in instant. -/
structure ScanState where
  totalMs : Int
  pairs : List ShiftPair
  lastCheckinTime : Option Int
deriving DecidableEq, Repr

/-- One iteration of the `for (const log of sortedLogs)` loop of
`calculateHoursAndPairs` (src/index.tsx lines 383-401). -/
def scanStep (s : ScanState) (log : DailyLog) : ScanState :=
  match log.action with
  | .checkin =>
      match s.lastCheckinTime with
      | none => { s with lastCheckinTime := some log.timestamp }
      | some _ => s
  | .checkout =>
      match s.lastCheckinTime with
      | none => s
      | some c =>
          let durationMs := log.timestamp - c
          if 0 < durationMs then
            { totalMs := s.totalMs + durationMs
              pairs := s.pairs ++ [{ checkin := c
                                     checkout := log.timestamp
                                     duration := (durationMs : ℚ) / (msPerHour : ℚ) }]
              lastCheckinTime := none }
          else
            { s with lastCheckinTime := none }

/-- Comparator of the `sort((a, b) => ta - tb)` calls: ascending timestamp. -/
def logLe (a b : DailyLog) : Prop := a.timestamp ≤ b.timestamp

instance : DecidableRel logLe := fun a b =>
  inferInstanceAs (Decidable (a.timestamp ≤ b.timestamp))

instance : IsTotal DailyLog logLe := ⟨fun a b => Int.le_total a.timestamp b.timestamp⟩

instance : IsTrans DailyLog logLe := ⟨fun _ _ _ h h2 => le_trans h h2⟩

/-- The filter `l.action === 'checkin' || l.action === 'checkout'` of
`calculateHoursAndPairs` (src/index.tsx line 376). -/
def isAttendanceAction (l : DailyLog) : Bool :=
  l.action == .checkin || l.action == .checkout

/-- `calculateHoursAndPairs` (src/index.tsx lines 374-403): filter to
attendance actions, sort ascending by timestamp, run the pairing scan, and
return total hours together with the emitted pairs. -/
def calculateHoursAndPairs (logs : List DailyLog) : ℚ × List ShiftPair :=
  let sortedLogs := (logs.filter isAttendanceAction).insertionSort logLe
  let final := sortedLogs.foldl scanStep { totalMs := 0, pairs := [], lastCheckinTime := none }
  ((final.totalMs : ℚ) / (msPerHour : ℚ), final.pairs)

/-- Every `DailyLog` action passes the attendance filter. -/
theorem filter_isAttendanceAction (logs : List DailyLog) :
    logs.filter isAttendanceAction = logs := by
  apply List.filter_eq_self.mpr
  intro l _
  cases h : l.action <;> simp [isAttendanceAction, h]

/-- Invariant propagation for the pairing scan: a property of every held
pair that is preserved by `scanStep` on newly emitted pairs holds for every
pair of the final state. -/
theorem scan_pairs_invariant (P : ShiftPair → Prop)
    (hP : ∀ (c t : Int), 0 < t - c →
      P { checkin := c, checkout := t, duration := ((t - c : Int) : ℚ) / (msPerHour : ℚ) }) :
    ∀ (l : List DailyLog) (s : ScanState), (∀ p ∈ s.pairs, P p) →
      ∀ p ∈ (l.foldl scanStep s).pairs, P p := by
  intro l
  induction l with
  | nil => intro s hs p hp; exact hs p hp
  | cons x xs ih =>
      intro s hs p hp
      refine ih (scanStep s x) ?_ p hp
      intro q hq
      cases hx : x.action with
      | checkin =>
          cases hc : s.lastCheckinTime <;>
            exact hs q (by simpa [scanStep, hx, hc] using hq)
      | checkout =>
          cases hc : s.lastCheckinTime with
          | none => exact hs q (by simpa [scanStep, hx, hc] using hq)
          | some c =>
              by_cases hd : 0 < x.timestamp - c
              · have hq2 : q ∈ s.pairs ++
                    [ShiftPair.mk c x.timestamp (((x.timestamp - c : Int) : ℚ) / (msPerHour : ℚ))] := by
                  simpa [scanStep, hx, hc, hd] using hq
                rcases List.mem_append.mp hq2 with h1 | h2
                · exact hs q h1
                · rw [List.mem_singleton.mp h2]; exact hP c x.timestamp hd
              · exact hs q (by simpa [scanStep, hx, hc, hd] using hq)

/-- Recursive characterisation of the paired-milliseconds accumulator of the
scan, indexed by the pending check-in. -/
def scanGain (pending : Option Int) : List DailyLog → Int
  | [] => 0
  | l :: r =>
      match l.action, pending with
      | .checkin, none => scanGain (some l.timestamp) r
      | .checkin, some c => scanGain (some c) r
      | .checkout, none => scanGain none r
      | .checkout, some c =>
          (if 0 < l.timestamp - c then l.timestamp - c else 0) + scanGain none r

/-- Recursive characterisation of the pair list emitted by the scan. -/
def scanPairs (pending : Option Int) : List DailyLog → List ShiftPair
  | [] => []
  | l :: r =>
      match l.action, pending with
      | .checkin, none => scanPairs (some l.timestamp) r
      | .checkin, some c => scanPairs (some c) r
      | .checkout, none => scanPairs none r
      | .checkout, some c =>
          (if 0 < l.timestamp - c then
            [ShiftPair.mk c l.timestamp (((l.timestamp - c : Int) : ℚ) / (msPerHour : ℚ))]
          else []) ++ scanPairs none r

/-- Recursive characterisation of the pending check-in left by the scan. -/
def scanPending (pending : Option Int) : List DailyLog → Option Int
  | [] => pending
  | l :: r =>
      match l.action, pending with
      | .checkin, none => scanPending (some l.timestamp) r
      | .checkin, some c => scanPending (some c) r
      | .checkout, _ => scanPending none r

/-- The imperative fold of the pairing loop equals its recursive
characterisation. -/
theorem foldl_scanStep_eq (l : List DailyLog) :
    ∀ s : ScanState,
      l.foldl scanStep s =
        ⟨s.totalMs + scanGain s.lastCheckinTime l,
         s.pairs ++ scanPairs s.lastCheckinTime l,
         scanPending s.lastCheckinTime l⟩ := by
  induction l with
  | nil => intro s; simp [scanGain, scanPairs, scanPending]
  | cons x xs ih =>
      intro s
      rw [List.foldl_cons, ih]
      cases hx : x.action with
      | checkin =>
          cases hc : s.lastCheckinTime <;>
            simp [scanStep, scanGain, scanPairs, scanPending, hx, hc]
      | checkout =>
          cases hc : s.lastCheckinTime with
          | none => simp [scanStep, scanGain, scanPairs, scanPending, hx, hc]
          | some c =>
              by_cases hd : 0 < x.timestamp - c <;>
                simp [scanStep, scanGain, scanPairs, scanPending, hx, hc, hd,
                      add_assoc, List.append_assoc]

/-- On a group already sorted ascending by timestamp, `calculateHoursAndPairs`
computes the recursive scan from an empty pending state. -/
theorem calculateHoursAndPairs_eq_scan {logs : List DailyLog}
    (hs : List.Sorted logLe logs) :
    calculateHoursAndPairs logs =
      ((scanGain none logs : ℚ) / (msPerHour : ℚ), scanPairs none logs) := by
  simp only [calculateHoursAndPairs, filter_isAttendanceAction, hs.insertionSort_eq,
             foldl_scanStep_eq]
  simp

/-- C1.  The shift pairing scan (src/index.tsx `calculateHoursAndPairs`,
lines 374-403): a `CheckIn` with no pending check-in becomes the pending
check-in; a `CheckIn` while one is pending is ignored (the first pending
check-in is kept); a `CheckOut` with a pending check-in emits a `ShiftPair`
of duration `checkout - pendingCheckin` exactly when that duration is
strictly positive and always clears the pending check-in; a `CheckOut` with
no pending check-in changes nothing.  Consequently every emitted `ShiftPair`
has strictly positive duration and no zero-length or negative pair is
retained. -/
theorem pairing_scan_spec :
    (∀ (s : ScanState) (t : Int), s.lastCheckinTime = none →
        scanStep s ⟨.checkin, t⟩ = { s with lastCheckinTime := some t }) ∧
    (∀ (s : ScanState) (t c : Int), s.lastCheckinTime = some c →
        scanStep s ⟨.checkin, t⟩ = s) ∧
    (∀ (s : ScanState) (t c : Int), s.lastCheckinTime = some c →
        scanStep s ⟨.checkout, t⟩ =
          if 0 < t - c then
            ⟨s.totalMs + (t - c),
             s.pairs ++ [ShiftPair.mk c t (((t - c : Int) : ℚ) / (msPerHour : ℚ))],
             none⟩
          else { s with lastCheckinTime := none }) ∧
    (∀ (s : ScanState) (t : Int), s.lastCheckinTime = none →
        scanStep s ⟨.checkout, t⟩ = s) ∧
    (∀ (logs : List DailyLog), ∀ p ∈ (calculateHoursAndPairs logs).2,
        p.checkin < p.checkout ∧ 0 < p.duration ∧
        p.duration = ((p.checkout - p.checkin : Int) : ℚ) / (msPerHour : ℚ)) := by
  refine ⟨?_, ?_, ?_, ?_, ?_⟩
  · intro s t h; simp [scanStep, h]
  · intro s t c h; simp [scanStep, h]
  · intro s t c h
    by_cases hd : 0 < t - c <;> simp [scanStep, h, hd]
  · intro s t h; simp [scanStep, h]
  · intro logs p hp
    have hinv := scan_pairs_invariant
      (fun q => q.checkin < q.checkout ∧ 0 < q.duration ∧
        q.duration = ((q.checkout - q.checkin : Int) : ℚ) / (msPerHour : ℚ))
      (by
        intro c t hd
        refine ⟨show c < t from sub_pos.mp hd, ?_, by simp⟩
        have hpos : (0 : ℚ) < ((t - c : Int) : ℚ) := by exact_mod_cast hd
        have hH : (0 : ℚ) < (msPerHour : ℚ) := by norm_num [msPerHour]
        exact div_pos hpos hH)
      ((logs.filter isAttendanceAction).insertionSort logLe)
      { totalMs := 0, pairs := [], lastCheckinTime := none }
      (by simp)
    exact hinv p hp

/-- Witness for C1 at the concrete group check-in at 0 ms, check-out at
3 600 000 ms: the single emitted pair has positive one-hour duration. -/
theorem pairing_scan_spec_witness :
    (ShiftPair.mk 0 3600000 1).checkin < (ShiftPair.mk 0 3600000 1).checkout ∧
    (0 : ℚ) < (ShiftPair.mk 0 3600000 1).duration ∧
    (ShiftPair.mk 0 3600000 1).duration =
      (((ShiftPair.mk 0 3600000 1).checkout - (ShiftPair.mk 0 3600000 1).checkin : Int) : ℚ) /
        (msPerHour : ℚ) :=
  pairing_scan_spec.2.2.2.2
    [⟨.checkin, 0⟩, ⟨.checkout, 3600000⟩]
    (ShiftPair.mk 0 3600000 1)
    (by norm_num [calculateHoursAndPairs, isAttendanceAction, List.insertionSort,
                  List.orderedInsert, logLe, scanStep, msPerHour])

/-- The predicate `log.action === 'checkin'` (src/index.tsx line 411). -/
def isCheckinLog (l : DailyLog) : Bool := l.action == .checkin

/-- The predicate `log.action === 'checkout'` (src/index.tsx line 412). -/
def isCheckoutLog (l : DailyLog) : Bool := l.action == .checkout

/-- The global hour-totalling policy (src/index.tsx `CalculationMethod`). -/
inductive CalculationMethod where
  | firstLast
  | pairs
deriving DecidableEq, Repr

/-- A per-employee, per-date summary (src/index.tsx `DailySummary`); the
`YYYY-MM-DD` date key is modelled as a day index. -/
structure DailySummary where
  date : Int
  firstIn : Option Int
  lastOut : Option Int
  totalHours : ℚ
  shiftPairs : List ShiftPair
  logs : List DailyLog
deriving DecidableEq, Repr

/-- `checkins.length > 0 ? checkins[0].timestamp : null`
(src/index.tsx line 414). -/
def firstInOf (logs : List DailyLog) : Option Int :=
  (logs.filter isCheckinLog).head?.map DailyLog.timestamp

/-- `checkouts.length > 0 ? checkouts[checkouts.length - 1].timestamp : null`
(src/index.tsx line 415). -/
def lastOutOf (logs : List DailyLog) : Option Int :=
  (logs.filter isCheckoutLog).getLast?.map DailyLog.timestamp

/-- The closure `totalHoursFirstLast` (src/index.tsx lines 419-424). -/
def totalHoursFirstLast (logs : List DailyLog) : ℚ :=
  match firstInOf logs, lastOutOf logs with
  | some fi, some lo =>
      if fi < lo then ((lo - fi : Int) : ℚ) / (msPerHour : ℚ) else 0
  | _, _ => 0

/-- Construction of one `DailySummary` record in the attendance-data effect
(src/index.tsx lines 410-433). -/
def mkDailySummary (date : Int) (logs : List DailyLog)
    (method : CalculationMethod) : DailySummary :=
  let hp := calculateHoursAndPairs logs
  { date := date
    firstIn := firstInOf logs
    lastOut := lastOutOf logs
    totalHours :=
      match method with
      | .firstLast => totalHoursFirstLast logs
      | .pairs => hp.1
    shiftPairs := hp.2
    logs := logs }

/-- In a sorted list the value reported by `getLast?` bounds every element
from above. -/
theorem sorted_getLast_ge :
    ∀ {l : List DailyLog}, List.Sorted logLe l → ∀ {a : DailyLog},
      l.getLast? = some a → ∀ x ∈ l, x.timestamp ≤ a.timestamp := by
  intro l
  induction l with
  | nil => intro _ a h; simp at h
  | cons b bs ih =>
      intro hs a h x hx
      cases bs with
      | nil =>
          simp only [List.getLast?_singleton, Option.some.injEq] at h
          subst h
          simp only [List.mem_singleton] at hx
          subst hx
          exact le_refl _
      | cons c cs =>
          rw [List.getLast?_cons_cons] at h
          rcases List.mem_cons.mp hx with hb | hmem
          · subst hb
            exact List.rel_of_sorted_cons hs a (List.mem_of_getLast?_eq_some h)
          · exact ih hs.of_cons h x hmem

/-- On a sorted group, `firstInOf` reports the timestamp of a check-in entry
that is least among all check-in timestamps. -/
theorem firstInOf_spec {logs : List DailyLog} (hs : List.Sorted logLe logs)
    {fi : Int} (h : firstInOf logs = some fi) :
    (∃ l ∈ logs, l.action = .checkin ∧ l.timestamp = fi) ∧
      ∀ l ∈ logs, l.action = .checkin → fi ≤ l.timestamp := by
  unfold firstInOf at h
  cases hf : logs.filter isCheckinLog with
  | nil => rw [hf] at h; simp at h
  | cons a as =>
      rw [hf] at h
      simp at h
      have ha : a ∈ logs.filter isCheckinLog := by rw [hf]; exact List.mem_cons_self a as
      have ha2 := List.mem_filter.mp ha
      constructor
      · exact ⟨a, ha2.1, by simpa [isCheckinLog] using ha2.2, h⟩
      · intro l hl hact
        have hlf : l ∈ logs.filter isCheckinLog :=
          List.mem_filter.mpr ⟨hl, by simp [isCheckinLog, hact]⟩
        rw [hf] at hlf
        have hsf : List.Sorted logLe (a :: as) := by
          rw [← hf]; exact hs.filter isCheckinLog
        rcases List.mem_cons.mp hlf with hla | hmem
        · subst hla; omega
        · subst h; exact List.rel_of_sorted_cons hsf l hmem

/-- On a sorted group, `lastOutOf` reports the timestamp of a check-out entry
that is greatest among all check-out timestamps. -/
theorem lastOutOf_spec {logs : List DailyLog} (hs : List.Sorted logLe logs)
    {lo : Int} (h : lastOutOf logs = some lo) :
    (∃ l ∈ logs, l.action = .checkout ∧ l.timestamp = lo) ∧
      ∀ l ∈ logs, l.action = .checkout → l.timestamp ≤ lo := by
  unfold lastOutOf at h
  cases hg : (logs.filter isCheckoutLog).getLast? with
  | none => rw [hg] at h; simp at h
  | some a =>
      rw [hg] at h
      simp at h
      have ha : a ∈ logs.filter isCheckoutLog := List.mem_of_getLast?_eq_some hg
      have ha2 := List.mem_filter.mp ha
      constructor
      · exact ⟨a, ha2.1, by simpa [isCheckoutLog] using ha2.2, h⟩
      · intro l hl hact
        have hlf : l ∈ logs.filter isCheckoutLog :=
          List.mem_filter.mpr ⟨hl, by simp [isCheckoutLog, hact]⟩
        subst h
        exact sorted_getLast_ge (hs.filter isCheckoutLog) hg l hlf

/-- C2.  The daily summary (src/index.tsx lines 405-443): `firstIn` is the
earliest `CheckIn` timestamp of the sorted group (none when no `CheckIn`),
`lastOut` is the latest `CheckOut` timestamp (none when no `CheckOut`), and
under the first-last policy `totalHours = max 0 (lastOut - firstIn)` in
hours — zero when an endpoint is missing or `lastOut ≤ firstIn`, and the
plain difference otherwise, ignoring all intermediate events. -/
theorem daily_summary_spec (date : Int) (logs : List DailyLog)
    (m : CalculationMethod) (hs : List.Sorted logLe logs) :
    ((mkDailySummary date logs m).firstIn = none ↔
        ∀ l ∈ logs, l.action ≠ LogAction.checkin) ∧
    (∀ fi, (mkDailySummary date logs m).firstIn = some fi →
        (∃ l ∈ logs, l.action = LogAction.checkin ∧ l.timestamp = fi) ∧
          ∀ l ∈ logs, l.action = LogAction.checkin → fi ≤ l.timestamp) ∧
    ((mkDailySummary date logs m).lastOut = none ↔
        ∀ l ∈ logs, l.action ≠ LogAction.checkout) ∧
    (∀ lo, (mkDailySummary date logs m).lastOut = some lo →
        (∃ l ∈ logs, l.action = LogAction.checkout ∧ l.timestamp = lo) ∧
          ∀ l ∈ logs, l.action = LogAction.checkout → l.timestamp ≤ lo) ∧
    (∀ fi lo, (mkDailySummary date logs m).firstIn = some fi →
        (mkDailySummary date logs m).lastOut = some lo →
        (mkDailySummary date logs CalculationMethod.firstLast).totalHours =
          max 0 (((lo - fi : Int) : ℚ) / (msPerHour : ℚ))) ∧
    ((mkDailySummary date logs m).firstIn = none ∨
        (mkDailySummary date logs m).lastOut = none →
      (mkDailySummary date logs CalculationMethod.firstLast).totalHours = 0) ∧
    (∀ fi lo, (mkDailySummary date logs m).firstIn = some fi →
        (mkDailySummary date logs m).lastOut = some lo → lo ≤ fi →
        (mkDailySummary date logs CalculationMethod.firstLast).totalHours = 0) := by
  have hfi : (mkDailySummary date logs m).firstIn = firstInOf logs := rfl
  have hlo : (mkDailySummary date logs m).lastOut = lastOutOf logs := rfl
  have htot : (mkDailySummary date logs CalculationMethod.firstLast).totalHours =
      totalHoursFirstLast logs := rfl
  refine ⟨?_, ?_, ?_, ?_, ?_, ?_, ?_⟩
  · rw [hfi]
    unfold firstInOf
    simp [isCheckinLog]
  · intro fi h; exact firstInOf_spec hs (hfi ▸ h)
  · rw [hlo]
    unfold lastOutOf
    simp [isCheckoutLog]
  · intro lo h; exact lastOutOf_spec hs (hlo ▸ h)
  · intro fi lo h1 h2
    rw [hfi] at h1
    rw [hlo] at h2
    rw [htot]
    unfold totalHoursFirstLast
    rw [h1, h2]
    dsimp only
    by_cases hc : fi < lo
    · rw [if_pos hc, eq_comm, max_eq_right]
      apply div_nonneg
      · have : (0 : Int) ≤ lo - fi := by omega
        exact_mod_cast this
      · norm_num [msPerHour]
    · rw [if_neg hc, eq_comm, max_eq_left]
      apply div_nonpos_of_nonpos_of_nonneg
      · have : (lo - fi : Int) ≤ 0 := by omega
        exact_mod_cast this
      · norm_num [msPerHour]
  · intro h
    rw [htot]
    unfold totalHoursFirstLast
    rcases h with h | h
    · rw [hfi] at h; rw [h]
    · rw [hlo] at h
      rw [h]
      cases firstInOf logs <;> rfl
  · intro fi lo h1 h2 hle
    rw [hfi] at h1
    rw [hlo] at h2
    rw [htot]
    unfold totalHoursFirstLast
    rw [h1, h2]
    dsimp only
    rw [if_neg (by omega)]

/-- Witness for C2 at the group check-in at 0 ms, check-out at 7 200 000 ms:
the first-last total is `max 0 (7 200 000 / 3 600 000)` hours. -/
theorem daily_summary_spec_witness :
    (mkDailySummary 0 [⟨.checkin, 0⟩, ⟨.checkout, 7200000⟩]
        CalculationMethod.firstLast).totalHours =
      max 0 (((7200000 - 0 : Int) : ℚ) / (msPerHour : ℚ)) :=
  (daily_summary_spec 0 [⟨.checkin, 0⟩, ⟨.checkout, 7200000⟩]
      CalculationMethod.firstLast (by decide)).2.2.2.2.1 0 7200000
    (by decide) (by decide)

/-- Each log entry is counted by exactly one of the two action filters. -/
theorem length_filter_checkin_add_checkout (l : List DailyLog) :
    (l.filter isCheckinLog).length + (l.filter isCheckoutLog).length = l.length := by
  induction l with
  | nil => rfl
  | cons a r ih =>
      cases ha : a.action <;>
        simp [isCheckinLog, isCheckoutLog, ha] <;> omega

/-- C9.  On a group with exactly one `CheckIn` and exactly one `CheckOut`,
the first-last policy and the pairs policy produce exactly the same
`totalHours` value (src/index.tsx lines 374-403 and 405-443). -/
theorem policy_equivalence_single_shift (date : Int) (logs : List DailyLog)
    (hs : List.Sorted logLe logs)
    (hin : (logs.filter isCheckinLog).length = 1)
    (hout : (logs.filter isCheckoutLog).length = 1) :
    (mkDailySummary date logs CalculationMethod.firstLast).totalHours =
      (mkDailySummary date logs CalculationMethod.pairs).totalHours := by
  have hlen : logs.length = 2 := by
    have := length_filter_checkin_add_checkout logs
    omega
  obtain ⟨a, b, rfl⟩ := List.length_eq_two.mp hlen
  have hab : a.timestamp ≤ b.timestamp :=
    List.rel_of_sorted_cons hs b (List.mem_singleton.mpr rfl)
  have hcalc := calculateHoursAndPairs_eq_scan hs
  have htot : (mkDailySummary date [a, b] CalculationMethod.pairs).totalHours =
      ((scanGain none [a, b] : Int) : ℚ) / (msPerHour : ℚ) := by
    simp [mkDailySummary, hcalc]
  rw [htot]
  have hfl : (mkDailySummary date [a, b] CalculationMethod.firstLast).totalHours =
      totalHoursFirstLast [a, b] := rfl
  rw [hfl]
  cases ha : a.action with
  | checkin =>
      cases hb : b.action with
      | checkin => simp [isCheckoutLog, ha, hb] at hout
      | checkout =>
          have h1 : firstInOf [a, b] = some a.timestamp := by
            simp [firstInOf, isCheckinLog, ha]
          have h2 : lastOutOf [a, b] = some b.timestamp := by
            simp [lastOutOf, isCheckoutLog, ha, hb]
          have hg : scanGain none [a, b] =
              if 0 < b.timestamp - a.timestamp then b.timestamp - a.timestamp else 0 := by
            simp [scanGain, ha, hb]
          unfold totalHoursFirstLast
          rw [h1, h2, hg]
          dsimp only
          by_cases hc : a.timestamp < b.timestamp
          · rw [if_pos hc, if_pos (by omega)]
          · rw [if_neg hc, if_neg (by omega)]
            simp
  | checkout =>
      cases hb : b.action with
      | checkin =>
          have h1 : firstInOf [a, b] = some b.timestamp := by
            simp [firstInOf, isCheckinLog, ha, hb]
          have h2 : lastOutOf [a, b] = some a.timestamp := by
            simp [lastOutOf, isCheckoutLog, ha, hb]
          have hg : scanGain none [a, b] = 0 := by
            simp [scanGain, ha, hb]
          unfold totalHoursFirstLast
          rw [h1, h2, hg]
          dsimp only
          rw [if_neg (by omega)]
          simp
      | checkout => simp [isCheckinLog, ha, hb] at hin

/-- Witness for C9 at the group check-in at 0 ms, check-out at 3 600 000 ms:
both policies agree on this single-shift day. -/
theorem policy_equivalence_single_shift_witness :
    (mkDailySummary 0 [⟨.checkin, 0⟩, ⟨.checkout, 3600000⟩]
        CalculationMethod.firstLast).totalHours =
      (mkDailySummary 0 [⟨.checkin, 0⟩, ⟨.checkout, 3600000⟩]
        CalculationMethod.pairs).totalHours :=
  policy_equivalence_single_shift 0 [⟨.checkin, 0⟩, ⟨.checkout, 3600000⟩]
    (by decide) (by decide) (by decide)

/-- Unfolding equation: a leading check-in fixes `firstInOf`. -/
theorem firstInOf_cons_checkin {x : DailyLog} (r : List DailyLog)
    (hx : x.action = LogAction.checkin) :
    firstInOf (x :: r) = some x.timestamp := by
  simp [firstInOf, isCheckinLog, hx]

/-- Unfolding equation: a leading check-out does not affect `firstInOf`. -/
theorem firstInOf_cons_checkout {x : DailyLog} (r : List DailyLog)
    (hx : x.action = LogAction.checkout) :
    firstInOf (x :: r) = firstInOf r := by
  simp [firstInOf, isCheckinLog, hx]

/-- Unfolding equation: a leading check-in does not affect `lastOutOf`. -/
theorem lastOutOf_cons_checkin {x : DailyLog} (r : List DailyLog)
    (hx : x.action = LogAction.checkin) :
    lastOutOf (x :: r) = lastOutOf r := by
  simp [lastOutOf, isCheckoutLog, hx]

/-- Unfolding equation: a leading check-out is the fallback last check-out. -/
theorem lastOutOf_cons_checkout {x : DailyLog} (r : List DailyLog)
    (hx : x.action = LogAction.checkout) :
    lastOutOf (x :: r) = some ((lastOutOf r).getD x.timestamp) := by
  unfold lastOutOf
  have hfil : (x :: r).filter isCheckoutLog = x :: r.filter isCheckoutLog := by
    simp [isCheckoutLog, hx]
  rw [hfil]
  cases hg : r.filter isCheckoutLog with
  | nil => simp
  | cons a as =>
      rw [List.getLast?_cons_cons]
      cases hga : (a :: as).getLast? with
      | none => simp at hga
      | some b => simp [hga]

/-- The value reported by `lastOutOf` is the timestamp of some check-out. -/
theorem lastOutOf_mem {l : List DailyLog} {M : Int} (h : lastOutOf l = some M) :
    ∃ x ∈ l, x.action = LogAction.checkout ∧ x.timestamp = M := by
  unfold lastOutOf at h
  cases hg : (l.filter isCheckoutLog).getLast? with
  | none => rw [hg] at h; simp at h
  | some a =>
      rw [hg] at h
      simp at h
      have ha2 := List.mem_filter.mp (List.mem_of_getLast?_eq_some hg)
      exact ⟨a, ha2.1, by simpa [isCheckoutLog] using ha2.2, h⟩

/-- The value reported by `firstInOf` is the timestamp of some check-in. -/
theorem firstInOf_mem {l : List DailyLog} {f : Int} (h : firstInOf l = some f) :
    ∃ x ∈ l, x.action = LogAction.checkin ∧ x.timestamp = f := by
  unfold firstInOf at h
  cases hg : (l.filter isCheckinLog).head? with
  | none => rw [hg] at h; simp at h
  | some a =>
      rw [hg] at h
      simp at h
      have ha2 := List.mem_filter.mp (List.mem_of_mem_head? hg)
      exact ⟨a, ha2.1, by simpa [isCheckinLog] using ha2.2, h⟩

/-- A check-out entry forces `lastOutOf` to report a value. -/
theorem lastOutOf_isSome {l : List DailyLog} {x : DailyLog} (hx : x ∈ l)
    (hact : x.action = LogAction.checkout) : ∃ M, lastOutOf l = some M := by
  cases hM : lastOutOf l with
  | some M => exact ⟨M, rfl⟩
  | none =>
      unfold lastOutOf at hM
      have hM2 : l.filter isCheckoutLog = [] := by
        cases hh : (l.filter isCheckoutLog).getLast? with
        | none => exact List.getLast?_eq_none_iff.mp hh
        | some b => rw [hh] at hM; simp at hM
      have : x ∈ l.filter isCheckoutLog :=
        List.mem_filter.mpr ⟨hx, by simp [isCheckoutLog, hact]⟩
      rw [hM2] at this
      simp at this

/-- A check-in entry forces `firstInOf` to report a value. -/
theorem firstInOf_isSome {l : List DailyLog} {x : DailyLog} (hx : x ∈ l)
    (hact : x.action = LogAction.checkin) : ∃ f, firstInOf l = some f := by
  cases hf : firstInOf l with
  | some f => exact ⟨f, rfl⟩
  | none =>
      unfold firstInOf at hf
      have hf2 : l.filter isCheckinLog = [] := by
        cases hh : (l.filter isCheckinLog).head? with
        | none => exact List.head?_eq_none_iff.mp hh
        | some b => rw [hh] at hf; simp at hf
      have : x ∈ l.filter isCheckinLog :=
        List.mem_filter.mpr ⟨hx, by simp [isCheckinLog, hact]⟩
      rw [hf2] at this
      simp at this

/-- The scan never accumulates a negative total. -/
theorem scanGain_nonneg : ∀ (l : List DailyLog) (pending : Option Int),
    0 ≤ scanGain pending l := by
  intro l
  induction l with
  | nil => intro pending; simp [scanGain]
  | cons x r ih =>
      intro pending
      cases hx : x.action with
      | checkin =>
          cases pending <;> simpa [scanGain, hx] using ih _
      | checkout =>
          cases pending with
          | none => simpa [scanGain, hx] using ih none
          | some c =>
              have := ih none
              simp only [scanGain, hx]
              by_cases hd : 0 < x.timestamp - c <;> simp [hd] <;> omega

/-- Joint upper bound for the scan total on a sorted group: with a pending
check-in at `c` below every remaining timestamp the gain is at most
`lastOut - c` (or nonpositive when there is no check-out), and with no
pending check-in it is at most `lastOut - firstIn` (or nonpositive when an
endpoint is missing). -/
theorem scanGain_bounds :
    ∀ l : List DailyLog, List.Sorted logLe l →
      ((∀ c : Int, (∀ x ∈ l, c ≤ x.timestamp) →
          scanGain (some c) l ≤ 0 ∨
            ∃ M, lastOutOf l = some M ∧ scanGain (some c) l ≤ M - c) ∧
        (scanGain none l ≤ 0 ∨
          ∃ f M, firstInOf l = some f ∧ lastOutOf l = some M ∧
            scanGain none l ≤ M - f)) := by
  intro l
  induction l with
  | nil =>
      intro _
      exact ⟨fun c _ => Or.inl (by simp [scanGain]), Or.inl (by simp [scanGain])⟩
  | cons x r ih =>
      intro hs
      obtain ⟨ihA, ihB⟩ := ih hs.of_cons
      have hxr : ∀ y ∈ r, x.timestamp ≤ y.timestamp :=
        fun y hy => List.rel_of_sorted_cons hs y hy
      constructor
      · intro c hc
        have hcx : c ≤ x.timestamp := hc x (List.mem_cons_self x r)
        cases hx : x.action with
        | checkin =>
            have hgeq : scanGain (some c) (x :: r) = scanGain (some c) r := by
              simp [scanGain, hx]
            rw [hgeq, lastOutOf_cons_checkin r hx]
            exact ihA c fun y hy => hc y (List.mem_cons_of_mem x hy)
        | checkout =>
            have hgeq : scanGain (some c) (x :: r) =
                (if 0 < x.timestamp - c then x.timestamp - c else 0) + scanGain none r := by
              simp [scanGain, hx]
            rw [hgeq, lastOutOf_cons_checkout r hx]
            rcases ihB with hB | ⟨f, M, hf, hM, hB⟩
            · cases hM : lastOutOf r with
              | none =>
                  refine Or.inr ⟨x.timestamp, rfl, ?_⟩
                  by_cases hd : 0 < x.timestamp - c <;> simp [hd] <;> omega
              | some M =>
                  have hxM : x.timestamp ≤ M := by
                    obtain ⟨y, hy, hyact, hyts⟩ := lastOutOf_mem hM
                    subst hyts
                    exact hxr y hy
                  refine Or.inr ⟨M, rfl, ?_⟩
                  by_cases hd : 0 < x.timestamp - c <;> simp [hd] <;> omega
            · have hxf : x.timestamp ≤ f := by
                obtain ⟨y, hy, hyact, hyts⟩ := firstInOf_mem hf
                subst hyts
                exact hxr y hy
              have hxM : x.timestamp ≤ M := by
                obtain ⟨y, hy, hyact, hyts⟩ := lastOutOf_mem hM
                subst hyts
                exact hxr y hy
              refine Or.inr ⟨M, by rw [hM]; rfl, ?_⟩
              by_cases hd : 0 < x.timestamp - c <;> simp [hd] <;> omega
      · cases hx : x.action with
        | checkin =>
            have hgeq : scanGain none (x :: r) = scanGain (some x.timestamp) r := by
              simp [scanGain, hx]
            rw [hgeq]
            rcases ihA x.timestamp hxr with hA | ⟨M, hM, hA⟩
            · exact Or.inl hA
            · exact Or.inr ⟨x.timestamp, M, firstInOf_cons_checkin r hx,
                by rw [lastOutOf_cons_checkin r hx]; exact hM, hA⟩
        | checkout =>
            have hgeq : scanGain none (x :: r) = scanGain none r := by
              simp [scanGain, hx]
            rw [hgeq]
            rcases ihB with hB | ⟨f, M, hf, hM, hB⟩
            · exact Or.inl hB
            · refine Or.inr ⟨f, M, ?_, ?_, hB⟩
              · rw [firstInOf_cons_checkout r hx]; exact hf
              · rw [lastOutOf_cons_checkout r hx, hM]; rfl

/-- Every emitted pair closes at the timestamp of a check-out entry, and
opens either at the initial pending check-in or at a check-in entry. -/
theorem scanPairs_mem_shape :
    ∀ (l : List DailyLog) (pending : Option Int) (p : ShiftPair),
      p ∈ scanPairs pending l →
        (∃ x ∈ l, x.action = LogAction.checkout ∧ x.timestamp = p.checkout) ∧
          ((∃ c, pending = some c ∧ p.checkin = c) ∨
            ∃ x ∈ l, x.action = LogAction.checkin ∧ x.timestamp = p.checkin) := by
  intro l
  induction l with
  | nil => intro pending p hp; simp [scanPairs] at hp
  | cons x r ih =>
      intro pending p hp
      cases hx : x.action with
      | checkin =>
          cases pending with
          | none =>
              have hp2 : p ∈ scanPairs (some x.timestamp) r := by
                simpa [scanPairs, hx] using hp
              obtain ⟨⟨y, hy, hyact, hyts⟩, hci⟩ := ih (some x.timestamp) p hp2
              refine ⟨⟨y, List.mem_cons_of_mem x hy, hyact, hyts⟩, ?_⟩
              rcases hci with ⟨c, hc, hpc⟩ | ⟨y2, hy2, hy2act, hy2ts⟩
              · exact Or.inr ⟨x, List.mem_cons_self x r, hx,
                  by injection hc with hc2; omega⟩
              · exact Or.inr ⟨y2, List.mem_cons_of_mem x hy2, hy2act, hy2ts⟩
          | some c =>
              have hp2 : p ∈ scanPairs (some c) r := by
                simpa [scanPairs, hx] using hp
              obtain ⟨⟨y, hy, hyact, hyts⟩, hci⟩ := ih (some c) p hp2
              refine ⟨⟨y, List.mem_cons_of_mem x hy, hyact, hyts⟩, ?_⟩
              rcases hci with hpend | ⟨y2, hy2, hy2act, hy2ts⟩
              · exact Or.inl hpend
              · exact Or.inr ⟨y2, List.mem_cons_of_mem x hy2, hy2act, hy2ts⟩
      | checkout =>
          cases pending with
          | none =>
              have hp2 : p ∈ scanPairs none r := by
                simpa [scanPairs, hx] using hp
              obtain ⟨⟨y, hy, hyact, hyts⟩, hci⟩ := ih none p hp2
              refine ⟨⟨y, List.mem_cons_of_mem x hy, hyact, hyts⟩, ?_⟩
              rcases hci with ⟨c, hc, hpc⟩ | ⟨y2, hy2, hy2act, hy2ts⟩
              · simp at hc
              · exact Or.inr ⟨y2, List.mem_cons_of_mem x hy2, hy2act, hy2ts⟩
          | some c =>
              have hp2 : p ∈ (if 0 < x.timestamp - c then
                  [ShiftPair.mk c x.timestamp
                    (((x.timestamp - c : Int) : ℚ) / (msPerHour : ℚ))]
                else []) ++ scanPairs none r := by
                simpa [scanPairs, hx] using hp
              rcases List.mem_append.mp hp2 with hhead | htail
              · by_cases hd : 0 < x.timestamp - c
                · rw [if_pos hd, List.mem_singleton] at hhead
                  subst hhead
                  exact ⟨⟨x, List.mem_cons_self x r, hx, rfl⟩, Or.inl ⟨c, rfl, rfl⟩⟩
                · rw [if_neg hd] at hhead
                  simp at hhead
              · obtain ⟨⟨y, hy, hyact, hyts⟩, hci⟩ := ih none p htail
                refine ⟨⟨y, List.mem_cons_of_mem x hy, hyact, hyts⟩, ?_⟩
                rcases hci with ⟨c2, hc2, hpc⟩ | ⟨y2, hy2, hy2act, hy2ts⟩
                · simp at hc2
                · exact Or.inr ⟨y2, List.mem_cons_of_mem x hy2, hy2act, hy2ts⟩

/-- A chain of pairs bounded below: each pair opens at or after `lb` and
after the close of the previous pair. -/
def pairChainFrom (lb : Int) : List ShiftPair → Prop
  | [] => True
  | p :: ps => lb ≤ p.checkin ∧ pairChainFrom p.checkout ps

/-- The scan emits a chain of pairs: with a pending check-in at `c ≥ lb`
below every remaining timestamp, or with no pending check-in and `lb` below
every timestamp, successive pairs do not overlap. -/
theorem scanPairs_chain :
    ∀ l : List DailyLog, List.Sorted logLe l →
      ((∀ c lb : Int, lb ≤ c → (∀ x ∈ l, c ≤ x.timestamp) →
          pairChainFrom lb (scanPairs (some c) l)) ∧
        (∀ lb : Int, (∀ x ∈ l, lb ≤ x.timestamp) →
          pairChainFrom lb (scanPairs none l))) := by
  intro l
  induction l with
  | nil =>
      intro _
      exact ⟨fun c lb _ _ => by simp [scanPairs, pairChainFrom],
        fun lb _ => by simp [scanPairs, pairChainFrom]⟩
  | cons x r ih =>
      intro hs
      obtain ⟨ihA, ihB⟩ := ih hs.of_cons
      have hxr : ∀ y ∈ r, x.timestamp ≤ y.timestamp :=
        fun y hy => List.rel_of_sorted_cons hs y hy
      constructor
      · intro c lb hlb hc
        have hcx : c ≤ x.timestamp := hc x (List.mem_cons_self x r)
        cases hx : x.action with
        | checkin =>
            have : scanPairs (some c) (x :: r) = scanPairs (some c) r := by
              simp [scanPairs, hx]
            rw [this]
            exact ihA c lb hlb fun y hy => hc y (List.mem_cons_of_mem x hy)
        | checkout =>
            have heq : scanPairs (some c) (x :: r) =
                (if 0 < x.timestamp - c then
                  [ShiftPair.mk c x.timestamp
                    (((x.timestamp - c : Int) : ℚ) / (msPerHour : ℚ))]
                else []) ++ scanPairs none r := by
              simp [scanPairs, hx]
            rw [heq]
            by_cases hd : 0 < x.timestamp - c
            · rw [if_pos hd]
              refine ⟨show lb ≤ c by omega, ?_⟩
              exact ihB x.timestamp hxr
            · rw [if_neg hd, List.nil_append]
              refine ihB lb fun y hy => ?_
              have := hxr y hy
              omega
      · intro lb hlb
        cases hx : x.action with
        | checkin =>
            have : scanPairs none (x :: r) = scanPairs (some x.timestamp) r := by
              simp [scanPairs, hx]
            rw [this]
            exact ihA x.timestamp lb (hlb x (List.mem_cons_self x r)) hxr
        | checkout =>
            have : scanPairs none (x :: r) = scanPairs none r := by
              simp [scanPairs, hx]
            rw [this]
            exact ihB lb fun y hy => hlb y (List.mem_cons_of_mem x hy)

/-- A bounded chain of pairs satisfies the successive non-overlap relation. -/
theorem pairChainFrom_chain :
    ∀ (ps : List ShiftPair) (lb : Int), pairChainFrom lb ps →
      List.Chain' (fun p q => p.checkout ≤ q.checkin) ps := by
  intro ps
  induction ps with
  | nil => intro lb _; simp
  | cons p qs ih =>
      intro lb h
      obtain ⟨hlb, hrest⟩ := h
      cases qs with
      | nil => simp
      | cons q rs =>
          refine List.Chain'.cons ?_ (ih p.checkout hrest)
          exact hrest.1

/-- The first-last total is never negative. -/
theorem totalHoursFirstLast_nonneg (logs : List DailyLog) :
    0 ≤ totalHoursFirstLast logs := by
  unfold totalHoursFirstLast
  cases hf : firstInOf logs with
  | none => cases hl : lastOutOf logs <;> norm_num
  | some fi =>
      cases hl : lastOutOf logs with
      | none => norm_num
      | some lo =>
          dsimp only
          split_ifs with h
          · apply div_nonneg
            · exact_mod_cast (by omega : (0 : Int) ≤ lo - fi)
            · norm_num [msPerHour]
          · exact le_refl 0

/-- C10.  On a sorted group the pairs-policy total never exceeds the
first-last total (src/index.tsx lines 374-403 and 419-424): the sum of
emitted `ShiftPair` durations is at most `max 0 (lastOut - firstIn)`;
moreover every emitted pair is a subinterval of
`[earliest CheckIn, latest CheckOut]`, every pair has its check-in strictly
before its check-out, and successive pairs do not overlap (each pair opens
at or after the close of the previous one, so the list is chronological). -/
theorem pairs_total_le_first_last (logs : List DailyLog)
    (hs : List.Sorted logLe logs) :
    (calculateHoursAndPairs logs).1 ≤ totalHoursFirstLast logs ∧
    (∀ p ∈ (calculateHoursAndPairs logs).2,
        ∃ f M, firstInOf logs = some f ∧ lastOutOf logs = some M ∧
          f ≤ p.checkin ∧ p.checkout ≤ M) ∧
    (∀ p ∈ (calculateHoursAndPairs logs).2, p.checkin < p.checkout) ∧
    List.Chain' (fun p q => p.checkout ≤ q.checkin)
      (calculateHoursAndPairs logs).2 := by
  have hcalc := calculateHoursAndPairs_eq_scan hs
  refine ⟨?_, ?_, ?_, ?_⟩
  · rw [hcalc]
    dsimp only
    rcases (scanGain_bounds logs hs).2 with hB | ⟨f, M, hf, hM, hB⟩
    · have hg0 : scanGain none logs = 0 :=
        le_antisymm hB (scanGain_nonneg logs none)
      rw [hg0]
      simpa using totalHoursFirstLast_nonneg logs
    · unfold totalHoursFirstLast
      rw [hf, hM]
      dsimp only
      by_cases hfM : f < M
      · rw [if_pos hfM]
        have hH : (0 : ℚ) < (msPerHour : ℚ) := by norm_num [msPerHour]
        exact (div_le_div_iff_of_pos_right hH).mpr (by exact_mod_cast hB)
      · rw [if_neg hfM]
        have hg0 : scanGain none logs = 0 :=
          le_antisymm (by omega) (scanGain_nonneg logs none)
        rw [hg0]
        norm_num
  · rw [hcalc]
    intro p hp
    obtain ⟨⟨y, hy, hyact, hyts⟩, hci⟩ := scanPairs_mem_shape logs none p hp
    rcases hci with ⟨c, hc, _⟩ | ⟨z, hz, hzact, hzts⟩
    · simp at hc
    · obtain ⟨f, hfeq⟩ := firstInOf_isSome hz hzact
      obtain ⟨M, hMeq⟩ := lastOutOf_isSome hy hyact
      refine ⟨f, M, hfeq, hMeq, ?_, ?_⟩
      · have := (firstInOf_spec hs hfeq).2 z hz hzact
        omega
      · have := (lastOutOf_spec hs hMeq).2 y hy hyact
        omega
  · intro p hp
    exact scan_pairs_invariant (fun q => q.checkin < q.checkout)
      (fun c t hd => sub_pos.mp hd)
      ((logs.filter isAttendanceAction).insertionSort logLe)
      { totalMs := 0, pairs := [], lastCheckinTime := none }
      (by simp) p hp
  · rw [hcalc]
    dsimp only
    cases logs with
    | nil => simp [scanPairs]
    | cons x r =>
        refine pairChainFrom_chain _ x.timestamp
          ((scanPairs_chain (x :: r) hs).2 x.timestamp ?_)
        intro y hy
        rcases List.mem_cons.mp hy with hyx | hyr
        · subst hyx; exact le_refl _
        · exact List.rel_of_sorted_cons hs y hyr

/-- Witness for C10 at a sorted two-shift group with a one-hour break: the
pairs total is bounded by the first-last total. -/
theorem pairs_total_le_first_last_witness :
    (calculateHoursAndPairs
        [⟨.checkin, 0⟩, ⟨.checkout, 3600000⟩,
         ⟨.checkin, 7200000⟩, ⟨.checkout, 10800000⟩]).1 ≤
      totalHoursFirstLast
        [⟨.checkin, 0⟩, ⟨.checkout, 3600000⟩,
         ⟨.checkin, 7200000⟩, ⟨.checkout, 10800000⟩] :=
  (pairs_total_le_first_last
    [⟨.checkin, 0⟩, ⟨.checkout, 3600000⟩,
     ⟨.checkin, 7200000⟩, ⟨.checkout, 10800000⟩] (by decide)).1

/-- A spreadsheet cell as seen after `const [employee, action, ...] = row`:
absent (`undefined`) or a string value (the remote store serves string
cells, per the interface contract). -/
inductive Cell where
  | undef
  | str (s : String)
deriving DecidableEq, Repr

/-- JS truthiness of a destructured cell (`!action`, `!employee`, ...):
`undefined` and the empty string are falsy. -/
def Cell.truthy : Cell → Bool
  | .undef => false
  | .str s => !s.isEmpty

/-- The string carried by a cell; only consulted behind a truthiness
guard, where it is a nonempty string. -/
def Cell.asString : Cell → String
  | .undef => ""
  | .str s => s

/-- One raw row from the remote sheet, of arbitrary shape: possibly not an
array at all, or an array of any length. -/
inductive RawRow where
  | notArray
  | arr (cells : List Cell)
deriving DecidableEq, Repr

/-- Array destructuring: positions past the end yield `undefined`. -/
def getCell (cells : List Cell) (i : Nat) : Cell :=
  cells.getD i Cell.undef

/-- The grouped per-employee, per-date log store (src/index.tsx
`RawLogData`), as insertion-ordered association lists mirroring JS `Map`
iteration order. -/
abbrev RawLogData := List (String × List (String × List DailyLog))

/-- The accumulator of the row loop of `fetchAndProcessData`
(src/index.tsx lines 80-83): employee candidate set, removed set, admin
passphrase and grouped logs.  JS `Set`s are insertion-ordered lists
without duplicates. -/
structure NormState where
  employeeSet : List String
  removedEmployeeSet : List String
  adminPassword : String
  rawLogData : RawLogData
deriving DecidableEq, Repr

/-- `Set.prototype.add`: append unless already present. -/
def setAdd (s : List String) (x : String) : List String :=
  if s.contains x then s else s ++ [x]

/-- `Set.prototype.delete`: drop the element. -/
def setDelete (s : List String) (x : String) : List String :=
  s.filter fun y => y != x

/-- Update the value at key `k` of an insertion-ordered association list in
place, appending `(k, f dflt)` when the key is new (JS `Map.set`). -/
def updateAssoc {β : Type} (m : List (String × β)) (k : String) (dflt : β)
    (f : β → β) : List (String × β) :=
  match m with
  | [] => [(k, f dflt)]
  | (k2, v) :: rest =>
      if k2 = k then (k2, f v) :: rest else (k2, v) :: updateAssoc rest k dflt f

/-- Push one log entry onto the `(employee, date)` group
(src/index.tsx lines 124-135). -/
def appendLog (m : RawLogData) (emp date : String) (log : DailyLog) : RawLogData :=
  updateAssoc m emp [] fun dm => updateAssoc dm date [] fun logs => logs ++ [log]

/-- One iteration of the row loop of `fetchAndProcessData`
(src/index.tsx lines 85-146).  The `new Date(timestamp)` validity check is
the external parser `parseTs`; a row that reaches no effectful branch
leaves the state unchanged (the source `continue`s). -/
def processRow (parseTs : String → Option Int) (st : NormState)
    (row : RawRow) : NormState :=
  match row with
  | .notArray => st
  | .arr cells =>
      if cells.length = 0 then st
      else
        let employee := getCell cells 0
        let action := getCell cells 1
        let timestamp := getCell cells 2
        let date := getCell cells 3
        if !action.truthy then st
        else if action.asString = "employee_added" then
          if employee.truthy then
            { st with
              employeeSet := setAdd st.employeeSet employee.asString
              removedEmployeeSet := setDelete st.removedEmployeeSet employee.asString }
          else st
        else if action.asString = "employee_removed" then
          if employee.truthy then
            { st with removedEmployeeSet := setAdd st.removedEmployeeSet employee.asString }
          else st
        else if action.asString = "admin_password_change" then
          if employee.truthy then { st with adminPassword := employee.asString }
          else st
        else if action.asString = "checkin" ∨ action.asString = "checkout" then
          if !employee.truthy || !timestamp.truthy || !date.truthy then st
          else
            match parseTs timestamp.asString with
            | none => st
            | some t =>
                let kind := if action.asString = "checkin" then LogAction.checkin
                  else LogAction.checkout
                { st with
                  employeeSet := setAdd st.employeeSet employee.asString
                  rawLogData := appendLog st.rawLogData employee.asString date.asString
                    ⟨kind, t⟩ }
        else
          if employee.truthy then
            { st with employeeSet := setAdd st.employeeSet employee.asString }
          else st

/-- The initial accumulator of the row loop (src/index.tsx lines 80-83). -/
def initNormState : NormState :=
  { employeeSet := [], removedEmployeeSet := [], adminPassword := "1234", rawLogData := [] }

/-- `fetchAndProcessData` (src/index.tsx lines 62-159) after the remote
fetch succeeded: process every row from index 1 (the header row is
skipped), sort each per-employee/per-date group ascending by timestamp, and
finalise the roster — all actors seen, minus removed ones and the sentinel
`SYSTEM`, sorted by the locale order `le` (the external
`localeCompare(·, 'he')`). -/
def fetchAndProcessData (parseTs : String → Option Int)
    (le : String → String → Prop) [DecidableRel le]
    (rows : List RawRow) : RawLogData × List String × String :=
  let st := (rows.drop 1).foldl (processRow parseTs) initNormState
  let rawLogData := st.rawLogData.map fun ed =>
    (ed.1, ed.2.map fun dl => (dl.1, dl.2.insertionSort logLe))
  let employees := (st.employeeSet.filter fun emp =>
      !st.removedEmployeeSet.contains emp && emp != "SYSTEM").insertionSort le
  (rawLogData, employees, st.adminPassword)

/-- The conditions under which the row loop registers an actor into the
employee candidate set: a truthy actor equal to `e` on a row whose action
is `employee_added`, a valid check-in/check-out (truthy timestamp and date
and a parseable timestamp), or an unknown action
(src/index.tsx lines 95-99, 112-122, 138-140). -/
def rowRegistersActor (parseTs : String → Option Int) (row : RawRow)
    (e : String) : Prop :=
  match row with
  | .notArray => False
  | .arr cells =>
      cells.length ≠ 0 ∧
      (getCell cells 0).truthy = true ∧ (getCell cells 0).asString = e ∧
      (getCell cells 1).truthy = true ∧
      (let a := (getCell cells 1).asString
       a = "employee_added" ∨
       ((a = "checkin" ∨ a = "checkout") ∧
         (getCell cells 2).truthy = true ∧ (getCell cells 3).truthy = true ∧
         ∃ t, parseTs (getCell cells 2).asString = some t) ∨
       (a ≠ "employee_added" ∧ a ≠ "employee_removed" ∧
         a ≠ "admin_password_change" ∧ a ≠ "checkin" ∧ a ≠ "checkout"))

/-- A roster event for one name, as read off one row. -/
inductive RosterEvent where
  | added
  | removed
deriving DecidableEq, Repr

/-- The roster event a row carries for the name `e`: `employee_added` or
`employee_removed` with a truthy actor equal to `e`
(src/index.tsx lines 95-106). -/
def rowRosterEvent (row : RawRow) (e : String) : Option RosterEvent :=
  match row with
  | .notArray => none
  | .arr cells =>
      if cells.length = 0 then none
      else if !(getCell cells 1).truthy then none
      else if (getCell cells 0).truthy && (getCell cells 0).asString == e then
        if (getCell cells 1).asString = "employee_added" then some RosterEvent.added
        else if (getCell cells 1).asString = "employee_removed" then some RosterEvent.removed
        else none
      else none

/-- The last roster event for `e` in row order. -/
def lastRosterEvent (rows : List RawRow) (e : String) : Option RosterEvent :=
  rows.foldl
    (fun acc row =>
      match rowRosterEvent row e with
      | some ev => some ev
      | none => acc)
    none

/-- Membership after `Set.add`. -/
theorem mem_setAdd {s : List String} {x y : String} :
    y ∈ setAdd s x ↔ y ∈ s ∨ x = y := by
  unfold setAdd
  split_ifs with h
  · constructor
    · exact Or.inl
    · rintro (hy | rfl)
      · exact hy
      · simpa using h
  · simp [eq_comm]

/-- Membership after `Set.delete`. -/
theorem mem_setDelete {s : List String} {x y : String} :
    y ∈ setDelete s x ↔ y ∈ s ∧ y ≠ x := by
  simp [setDelete]

set_option maxRecDepth 8000

/-- Membership in the employee candidate set after one row: the row either
already contained the name or registers it. -/
theorem processRow_employeeSet_mem (parseTs : String → Option Int)
    (st : NormState) (row : RawRow) (e : String) :
    e ∈ (processRow parseTs st row).employeeSet ↔
      e ∈ st.employeeSet ∨ rowRegistersActor parseTs row e := by
  cases row with
  | notArray => simp [processRow, rowRegistersActor]
  | arr cells =>
      unfold processRow rowRegistersActor
      by_cases hlen : cells.length = 0
      · simp [hlen]
      by_cases h1 : (getCell cells 1).truthy
      case neg =>
        have h1f : (getCell cells 1).truthy = false := by simpa using h1
        simp [hlen, h1f]
      by_cases h2 : (getCell cells 1).asString = "employee_added"
      · by_cases he : (getCell cells 0).truthy
        · simp_all [hlen, mem_setAdd] <;> tauto
        · have hef : (getCell cells 0).truthy = false := by simpa using he
          simp_all [hlen] <;> tauto
      by_cases h3 : (getCell cells 1).asString = "employee_removed"
      · by_cases he : (getCell cells 0).truthy
        · simp_all [hlen] <;> tauto
        · have hef : (getCell cells 0).truthy = false := by simpa using he
          simp_all [hlen] <;> tauto
      by_cases h4 : (getCell cells 1).asString = "admin_password_change"
      · by_cases he : (getCell cells 0).truthy
        · simp_all [hlen] <;> tauto
        · have hef : (getCell cells 0).truthy = false := by simpa using he
          simp_all [hlen] <;> tauto
      by_cases h5 : (getCell cells 1).asString = "checkin" ∨
          (getCell cells 1).asString = "checkout"
      · by_cases he : (getCell cells 0).truthy
        · by_cases ht : (getCell cells 2).truthy
          · by_cases hd : (getCell cells 3).truthy
            · cases hp : parseTs (getCell cells 2).asString with
              | none => simp_all [hlen] <;> tauto
              | some t => simp_all [hlen, mem_setAdd] <;> tauto
            · have hdf : (getCell cells 3).truthy = false := by simpa using hd
              simp_all [hlen] <;> tauto
          · have htf : (getCell cells 2).truthy = false := by simpa using ht
            simp_all [hlen] <;> tauto
        · have hef : (getCell cells 0).truthy = false := by simpa using he
          simp_all [hlen] <;> tauto
      · by_cases he : (getCell cells 0).truthy
        · simp_all [hlen, mem_setAdd] <;> tauto
        · have hef : (getCell cells 0).truthy = false := by simpa using he
          simp_all [hlen] <;> tauto

/-- Membership in the removed set after one row: an `employee_added` row
for the name clears it, an `employee_removed` row sets it, and every other
row leaves it unchanged. -/
theorem processRow_removedSet_mem (parseTs : String → Option Int)
    (st : NormState) (row : RawRow) (e : String) :
    e ∈ (processRow parseTs st row).removedEmployeeSet ↔
      (match rowRosterEvent row e with
       | some RosterEvent.added => False
       | some RosterEvent.removed => True
       | none => e ∈ st.removedEmployeeSet) := by
  cases row with
  | notArray => simp [processRow, rowRosterEvent]
  | arr cells =>
      unfold processRow rowRosterEvent
      by_cases hlen : cells.length = 0
      · simp [hlen]
      by_cases h1 : (getCell cells 1).truthy
      case neg =>
        have h1f : (getCell cells 1).truthy = false := by simpa using h1
        simp [hlen, h1f]
      by_cases h2 : (getCell cells 1).asString = "employee_added"
      · by_cases he : (getCell cells 0).truthy
        · by_cases hae : (getCell cells 0).asString = e
          · simp_all [hlen, mem_setDelete]
          · simp_all [hlen, mem_setDelete]
            exact fun _ h => hae h.symm
        · have hef : (getCell cells 0).truthy = false := by simpa using he
          simp_all [hlen]
      by_cases h3 : (getCell cells 1).asString = "employee_removed"
      · by_cases he : (getCell cells 0).truthy
        · by_cases hae : (getCell cells 0).asString = e
          · simp_all [hlen, mem_setAdd]
          · simp_all [hlen, mem_setAdd]
        · have hef : (getCell cells 0).truthy = false := by simpa using he
          simp_all [hlen]
      by_cases h4 : (getCell cells 1).asString = "admin_password_change"
      · by_cases he : (getCell cells 0).truthy <;> simp_all [hlen]
      by_cases h5 : (getCell cells 1).asString = "checkin" ∨
          (getCell cells 1).asString = "checkout"
      · by_cases he : (getCell cells 0).truthy
        · by_cases ht : (getCell cells 2).truthy
          · by_cases hd : (getCell cells 3).truthy
            · cases hp : parseTs (getCell cells 2).asString with
              | none => simp_all [hlen]
              | some t => simp_all [hlen]
            · have hdf : (getCell cells 3).truthy = false := by simpa using hd
              simp_all [hlen]
          · have htf : (getCell cells 2).truthy = false := by simpa using ht
            simp_all [hlen]
        · have hef : (getCell cells 0).truthy = false := by simpa using he
          simp_all [hlen]
      · by_cases he : (getCell cells 0).truthy <;> simp_all [hlen]

/-- The password after one row: an `admin_password_change` row with a
truthy actor overwrites it; every other row leaves it unchanged. -/
theorem processRow_adminPassword (parseTs : String → Option Int)
    (st : NormState) (row : RawRow) :
    (processRow parseTs st row).adminPassword = st.adminPassword ∨
      ∃ cells, row = RawRow.arr cells ∧
        (getCell cells 1).asString = "admin_password_change" ∧
        (getCell cells 0).truthy = true ∧
        (processRow parseTs st row).adminPassword = (getCell cells 0).asString := by
  cases row with
  | notArray => exact Or.inl rfl
  | arr cells =>
      unfold processRow
      by_cases hlen : cells.length = 0
      · simp [hlen]
      by_cases h1 : (getCell cells 1).truthy
      case neg =>
        have h1f : (getCell cells 1).truthy = false := by simpa using h1
        simp [hlen, h1f]
      by_cases h2 : (getCell cells 1).asString = "employee_added"
      · by_cases he : (getCell cells 0).truthy <;> simp_all [hlen]
      by_cases h3 : (getCell cells 1).asString = "employee_removed"
      · by_cases he : (getCell cells 0).truthy <;> simp_all [hlen]
      by_cases h4 : (getCell cells 1).asString = "admin_password_change"
      · by_cases he : (getCell cells 0).truthy
        · refine Or.inr ⟨cells, rfl, h4, he, ?_⟩
          simp_all [hlen]
        · have hef : (getCell cells 0).truthy = false := by simpa using he
          simp_all [hlen]
      by_cases h5 : (getCell cells 1).asString = "checkin" ∨
          (getCell cells 1).asString = "checkout"
      · by_cases he : (getCell cells 0).truthy
        · by_cases ht : (getCell cells 2).truthy
          · by_cases hd : (getCell cells 3).truthy
            · cases hp : parseTs (getCell cells 2).asString with
              | none => simp_all [hlen]
              | some t => simp_all [hlen]
            · have hdf : (getCell cells 3).truthy = false := by simpa using hd
              simp_all [hlen]
          · have htf : (getCell cells 2).truthy = false := by simpa using ht
            simp_all [hlen]
        · have hef : (getCell cells 0).truthy = false := by simpa using he
          simp_all [hlen]
      · by_cases he : (getCell cells 0).truthy <;> simp_all [hlen]

/-- The roster-event accumulator started from any value equals a match on
the accumulator started from `none`. -/
theorem foldl_rosterEvent (e : String) :
    ∀ (rows : List RawRow) (acc : Option RosterEvent),
      rows.foldl
        (fun acc row =>
          match rowRosterEvent row e with
          | some ev => some ev
          | none => acc) acc =
        (match lastRosterEvent rows e with
         | some ev => some ev
         | none => acc) := by
  intro rows
  induction rows with
  | nil => intro acc; rfl
  | cons r rows ih =>
      intro acc
      rw [List.foldl_cons, ih]
      have hcons : lastRosterEvent (r :: rows) e =
          (match lastRosterEvent rows e with
           | some ev => some ev
           | none =>
              match rowRosterEvent r e with
              | some ev => some ev
              | none => none) := by
        unfold lastRosterEvent
        rw [List.foldl_cons, ih]
        rfl
      rw [hcons]
      cases hL : lastRosterEvent rows e with
      | some ev => rfl
      | none => cases hr : rowRosterEvent r e <;> simp [hr]

/-- Unfolding equation for `lastRosterEvent` on a cons. -/
theorem lastRosterEvent_cons (r : RawRow) (rows : List RawRow) (e : String) :
    lastRosterEvent (r :: rows) e =
      (match lastRosterEvent rows e with
       | some ev => some ev
       | none => rowRosterEvent r e) := by
  have h1 : lastRosterEvent (r :: rows) e =
      rows.foldl
        (fun acc row =>
          match rowRosterEvent row e with
          | some ev => some ev
          | none => acc)
        (match rowRosterEvent r e with
         | some ev => some ev
         | none => none) := rfl
  rw [h1, foldl_rosterEvent]
  cases hL : lastRosterEvent rows e with
  | some ev => rfl
  | none => cases hr : rowRosterEvent r e <;> simp [hr]

/-- Fold characterisation of the roster content of the row loop: a name is
in the employee candidate set exactly when some row registers it, and in
the removed set exactly when its last roster event is a removal. -/
theorem processRows_roster_mem (parseTs : String → Option Int) (e : String) :
    ∀ (rows : List RawRow) (st : NormState),
      (e ∈ (rows.foldl (processRow parseTs) st).employeeSet ↔
        e ∈ st.employeeSet ∨ ∃ row ∈ rows, rowRegistersActor parseTs row e) ∧
      (e ∈ (rows.foldl (processRow parseTs) st).removedEmployeeSet ↔
        (match lastRosterEvent rows e with
         | some RosterEvent.removed => True
         | some RosterEvent.added => False
         | none => e ∈ st.removedEmployeeSet)) := by
  intro rows
  induction rows with
  | nil => intro st; constructor <;> simp [lastRosterEvent]
  | cons r rows ih =>
      intro st
      constructor
      · rw [List.foldl_cons, (ih (processRow parseTs st r)).1,
          processRow_employeeSet_mem]
        constructor
        · rintro ((h | h) | h)
          · exact Or.inl h
          · exact Or.inr ⟨r, List.mem_cons_self r rows, h⟩
          · obtain ⟨row, hrow, hreg⟩ := h
            exact Or.inr ⟨row, List.mem_cons_of_mem r hrow, hreg⟩
        · rintro (h | ⟨row, hrow, hreg⟩)
          · exact Or.inl (Or.inl h)
          · rcases List.mem_cons.mp hrow with rfl | hmem
            · exact Or.inl (Or.inr hreg)
            · exact Or.inr ⟨row, hmem, hreg⟩
      · rw [List.foldl_cons, (ih (processRow parseTs st r)).2,
          lastRosterEvent_cons]
        cases hL : lastRosterEvent rows e with
        | some ev => cases ev <;> rfl
        | none =>
            rw [processRow_removedSet_mem]
            cases hr : rowRosterEvent r e with
            | some ev => cases ev <;> rfl
            | none => rfl

/-- C3.  The final roster (src/index.tsx lines 85-146 and 154-156) consists
of exactly the actors registered by some processed row (a valid
`CheckIn`/`CheckOut`, an `EmployeeAdded`, or an unknown action), minus the
sentinel `SYSTEM`, minus every name whose last roster event in sequence
order was `EmployeeRemoved`; it is sorted by the locale order; and for the
sequence `EmployeeAdded "A"`, `EmployeeRemoved "A"`, `EmployeeAdded "A"`
the name `"A"` is present in the final roster. -/
theorem roster_normalization_spec (parseTs : String → Option Int)
    (le : String → String → Prop) [DecidableRel le]
    [IsTotal String le] [IsTrans String le] (rows : List RawRow) :
    (∀ e, e ∈ (fetchAndProcessData parseTs le rows).2.1 ↔
        ((∃ row ∈ rows.drop 1, rowRegistersActor parseTs row e) ∧
          e ≠ "SYSTEM" ∧
          lastRosterEvent (rows.drop 1) e ≠ some RosterEvent.removed)) ∧
    List.Sorted le (fetchAndProcessData parseTs le rows).2.1 ∧
    "A" ∈ (fetchAndProcessData parseTs le
        [RawRow.arr [Cell.str "header"],
         RawRow.arr [Cell.str "A", Cell.str "employee_added"],
         RawRow.arr [Cell.str "A", Cell.str "employee_removed"],
         RawRow.arr [Cell.str "A", Cell.str "employee_added"]]).2.1 := by
  have hmem : ∀ (rows2 : List RawRow) (e : String),
      e ∈ (fetchAndProcessData parseTs le rows2).2.1 ↔
        ((∃ row ∈ rows2.drop 1, rowRegistersActor parseTs row e) ∧
          e ≠ "SYSTEM" ∧
          lastRosterEvent (rows2.drop 1) e ≠ some RosterEvent.removed) := by
    intro rows2 e
    have hset := processRows_roster_mem parseTs e (rows2.drop 1) initNormState
    have hemp : (fetchAndProcessData parseTs le rows2).2.1 =
        List.insertionSort le
          (List.filter
            (fun emp =>
              !(((rows2.drop 1).foldl (processRow parseTs)
                  initNormState).removedEmployeeSet).contains emp &&
                emp != "SYSTEM")
            (((rows2.drop 1).foldl (processRow parseTs)
                initNormState).employeeSet)) := rfl
    rw [hemp, List.mem_insertionSort, List.mem_filter]
    have hrem : e ∈ ((rows2.drop 1).foldl (processRow parseTs)
        initNormState).removedEmployeeSet ↔
          lastRosterEvent (rows2.drop 1) e = some RosterEvent.removed := by
      rw [hset.2]
      cases hL : lastRosterEvent (rows2.drop 1) e with
      | none => simp [show initNormState.removedEmployeeSet = ([] : List String) from rfl]
      | some ev => cases ev <;> simp
    rw [hset.1]
    simp only [show initNormState.employeeSet = ([] : List String) from rfl,
      List.not_mem_nil, false_or,
      Bool.and_eq_true, Bool.not_eq_true', bne_iff_ne, ne_eq]
    constructor
    · rintro ⟨hreg, hfilt⟩
      have hc : ¬ e ∈ ((rows2.drop 1).foldl (processRow parseTs)
          initNormState).removedEmployeeSet := by
        intro hmem2
        have hct : (((rows2.drop 1).foldl (processRow parseTs)
            initNormState).removedEmployeeSet).contains e = true :=
          List.elem_iff.mpr hmem2
        rw [hfilt.1] at hct
        simp at hct
      exact ⟨hreg, hfilt.2, fun hlast => hc (hrem.mpr hlast)⟩
    · rintro ⟨hreg, hsys, hlast⟩
      refine ⟨hreg, ?_, hsys⟩
      rw [← Bool.not_eq_true]
      intro hcont
      exact hlast (hrem.mp (List.elem_iff.mp hcont))
  refine ⟨hmem rows, ?_, ?_⟩
  · exact List.sorted_insertionSort le _
  · refine (hmem _ "A").mpr ⟨⟨RawRow.arr [Cell.str "A", Cell.str "employee_added"],
      by simp, ?_⟩, by decide, ?_⟩
    · simp only [rowRegistersActor, getCell, Cell.truthy, Cell.asString]
      refine ⟨by decide, by decide, rfl, by decide, Or.inl rfl⟩
    · decide

/-- A trivially total and transitive string order used to instantiate the
external locale comparator in witnesses. -/
def leAny : String → String → Prop := fun _ _ => True

instance : DecidableRel leAny := fun _ _ => Decidable.isTrue trivial

instance : IsTotal String leAny := ⟨fun _ _ => Or.inl trivial⟩

instance : IsTrans String leAny := ⟨fun _ _ _ _ _ => trivial⟩

/-- Witness for C3 at the add, remove, re-add sequence for `"A"`: the name
is present in the final roster. -/
theorem roster_normalization_spec_witness :
    "A" ∈ (fetchAndProcessData (fun _ => none) leAny
        [RawRow.arr [Cell.str "header"],
         RawRow.arr [Cell.str "A", Cell.str "employee_added"],
         RawRow.arr [Cell.str "A", Cell.str "employee_removed"],
         RawRow.arr [Cell.str "A", Cell.str "employee_added"]]).2.1 :=
  (roster_normalization_spec (fun _ => none) leAny []).2.2

/-- C8.  The normalizer is total over arbitrary input rows
(src/index.tsx lines 85-146): processing is a per-row fold, so one skipped
row never aborts the remaining rows; a row that is not an array, an empty
row, a row with no action field, a `CheckIn`/`CheckOut` row missing a
non-empty actor, timestamp or date, and a `CheckIn`/`CheckOut` row whose
timestamp does not parse each leave the whole state unchanged and
contribute no log entry; and a row whose action is not an attendance action
contributes no log entry.  The embedding is a total function over every
`RawRow` shape by construction, mirroring the per-row `try`/`catch`. -/
theorem normalizer_total_spec (parseTs : String → Option Int) :
    (∀ (st : NormState) (row : RawRow) (rest : List RawRow),
        (row :: rest).foldl (processRow parseTs) st =
          rest.foldl (processRow parseTs) (processRow parseTs st row)) ∧
    (∀ st : NormState, processRow parseTs st RawRow.notArray = st) ∧
    (∀ st : NormState, processRow parseTs st (RawRow.arr []) = st) ∧
    (∀ (st : NormState) (cells : List Cell),
        (getCell cells 1).truthy = false →
        processRow parseTs st (RawRow.arr cells) = st) ∧
    (∀ (st : NormState) (cells : List Cell),
        ((getCell cells 1).asString = "checkin" ∨
          (getCell cells 1).asString = "checkout") →
        ((getCell cells 0).truthy = false ∨ (getCell cells 2).truthy = false ∨
          (getCell cells 3).truthy = false) →
        processRow parseTs st (RawRow.arr cells) = st) ∧
    (∀ (st : NormState) (cells : List Cell),
        ((getCell cells 1).asString = "checkin" ∨
          (getCell cells 1).asString = "checkout") →
        parseTs (getCell cells 2).asString = none →
        processRow parseTs st (RawRow.arr cells) = st) ∧
    (∀ (st : NormState) (cells : List Cell),
        (getCell cells 1).asString ≠ "checkin" →
        (getCell cells 1).asString ≠ "checkout" →
        (processRow parseTs st (RawRow.arr cells)).rawLogData = st.rawLogData) := by
  refine ⟨fun st row rest => List.foldl_cons _ _, fun st => rfl, fun st => rfl,
    ?_, ?_, ?_, ?_⟩
  · intro st cells h1
    unfold processRow
    by_cases hlen : cells.length = 0
    · simp [hlen]
    · simp [hlen, h1]
  · intro st cells hatt hmiss
    unfold processRow
    by_cases hlen : cells.length = 0
    · simp [hlen]
    have h2 : (getCell cells 1).asString ≠ "employee_added" := by
      rcases hatt with h | h <;> rw [h] <;> decide
    have h3 : (getCell cells 1).asString ≠ "employee_removed" := by
      rcases hatt with h | h <;> rw [h] <;> decide
    have h4 : (getCell cells 1).asString ≠ "admin_password_change" := by
      rcases hatt with h | h <;> rw [h] <;> decide
    have h1 : (getCell cells 1).truthy = true := by
      rcases hatt with h | h <;>
        · cases hc : getCell cells 1 with
          | undef => rw [hc] at h; simp [Cell.asString] at h
          | str s =>
              rw [hc] at h
              simp only [Cell.asString] at h
              subst h
              decide
    rcases hmiss with hm | hm | hm <;>
      simp [hlen, h1, h2, h3, h4, hatt, hm]
  · intro st cells hatt hp
    unfold processRow
    by_cases hlen : cells.length = 0
    · simp [hlen]
    have h2 : (getCell cells 1).asString ≠ "employee_added" := by
      rcases hatt with h | h <;> rw [h] <;> decide
    have h3 : (getCell cells 1).asString ≠ "employee_removed" := by
      rcases hatt with h | h <;> rw [h] <;> decide
    have h4 : (getCell cells 1).asString ≠ "admin_password_change" := by
      rcases hatt with h | h <;> rw [h] <;> decide
    have h1 : (getCell cells 1).truthy = true := by
      rcases hatt with h | h <;>
        · cases hc : getCell cells 1 with
          | undef => rw [hc] at h; simp [Cell.asString] at h
          | str s =>
              rw [hc] at h
              simp only [Cell.asString] at h
              subst h
              decide
    by_cases he : (getCell cells 0).truthy
    · by_cases ht : (getCell cells 2).truthy
      · by_cases hd : (getCell cells 3).truthy
        · simp [hlen, h1, h2, h3, h4, hatt, he, ht, hd, hp]
        · have hdf : (getCell cells 3).truthy = false := by simpa using hd
          simp [hlen, h1, h2, h3, h4, hatt, he, ht, hdf]
      · have htf : (getCell cells 2).truthy = false := by simpa using ht
        simp [hlen, h1, h2, h3, h4, hatt, he, htf]
    · have hef : (getCell cells 0).truthy = false := by simpa using he
      simp [hlen, h1, h2, h3, h4, hatt, hef]
  · intro st cells hnc hno
    unfold processRow
    by_cases hlen : cells.length = 0
    · simp [hlen]
    by_cases h1 : (getCell cells 1).truthy
    case neg =>
      have h1f : (getCell cells 1).truthy = false := by simpa using h1
      simp [hlen, h1f]
    by_cases h2 : (getCell cells 1).asString = "employee_added"
    · by_cases he : (getCell cells 0).truthy <;> simp_all [hlen]
    by_cases h3 : (getCell cells 1).asString = "employee_removed"
    · by_cases he : (getCell cells 0).truthy <;> simp_all [hlen]
    by_cases h4 : (getCell cells 1).asString = "admin_password_change"
    · by_cases he : (getCell cells 0).truthy <;> simp_all [hlen]
    have h5 : ¬ ((getCell cells 1).asString = "checkin" ∨
        (getCell cells 1).asString = "checkout") := by
      rintro (h | h)
      · exact hnc h
      · exact hno h
    by_cases he : (getCell cells 0).truthy <;> simp_all [hlen]

/-- Witness for C8 at a check-in row whose timestamp fails to parse: the
row is dropped and the state is unchanged. -/
theorem normalizer_total_spec_witness :
    processRow (fun _ => none) initNormState
      (RawRow.arr [Cell.str "A", Cell.str "checkin",
        Cell.str "garbage", Cell.str "2024-01-01"]) = initNormState :=
  (normalizer_total_spec (fun _ => none)).2.2.2.2.2.1 initNormState
    [Cell.str "A", Cell.str "checkin", Cell.str "garbage", Cell.str "2024-01-01"]
    (Or.inl (by decide)) rfl

/-- `Date.prototype.getDay` on a day index: Sunday = 0
(1970-01-01, day index 0, was a Thursday). -/
def dayOfWeek (d : Int) : Int := (d + 4) % 7

/-- `getWeekRange` (src/index.tsx lines 212-221) on a day index: midnight
truncation is the identity in the day model, the start is
`getDate() - getDay()` and the end six days later. -/
def getWeekRange (d : Int) : Int × Int :=
  let startOfWeek := d - dayOfWeek d
  (startOfWeek, startOfWeek + 6)

/-- Gregorian civil date `(year, month 1-12, day 1-31)` of a day index,
modelling `getFullYear`/`getMonth` of a JS `Date`. -/
def civilFromDays (z : Int) : Int × Nat × Nat :=
  let zs := z + 719468
  let era : Int := (if 0 ≤ zs then zs else zs - 146096) / 146097
  let doe : Nat := (zs - era * 146097).toNat
  let yoe : Nat := (doe - doe / 1460 + doe / 36524 - doe / 146096) / 365
  let y : Int := (yoe : Int) + era * 400
  let doy : Nat := doe - (365 * yoe + yoe / 4 - yoe / 100)
  let mp : Nat := (5 * doy + 2) / 153
  let d : Nat := doy - (153 * mp + 2) / 5 + 1
  let m : Nat := if mp < 10 then mp + 3 else mp - 9
  (if m ≤ 2 then y + 1 else y, m, d)

/-- `getFullYear` of a day index. -/
def yearOf (d : Int) : Int := (civilFromDays d).1

/-- `getMonth`-style month of a day index (1-12; only equality of months
matters to the selector). -/
def monthOf (d : Int) : Nat := (civilFromDays d).2.1

/-- The report granularity (src/index.tsx `ReportViewType`). -/
inductive ReportViewType where
  | day
  | week
  | month
deriving DecidableEq, Repr

/-- Comparator of the final `sort((a, b) => dateA - dateB)` of the report
selector: ascending summary date. -/
def summaryLe (a b : DailySummary) : Prop := a.date ≤ b.date

instance : DecidableRel summaryLe := fun a b =>
  inferInstanceAs (Decidable (a.date ≤ b.date))

instance : IsTotal DailySummary summaryLe := ⟨fun a b => Int.le_total a.date b.date⟩

instance : IsTrans DailySummary summaryLe := ⟨fun _ _ _ h h2 => le_trans h h2⟩

/-- `reportDataForSelectedEmployee` (src/index.tsx lines 445-478) for the
chosen employee's per-date map, given in its iteration order.  The month
branch compares calendar year and month of the parsed key with the
reference date; the week branch compares the parsed key (midnight instant)
against the week window whose end is stretched to 23:59:59.999; the day
branch looks the reference day up by key.  The result is sorted ascending
by date. -/
def reportDataForEmployee (employeeData : List (Int × DailySummary))
    (viewType : ReportViewType) (reportDate : Int) : List DailySummary :=
  let daysInRange :=
    match viewType with
    | .month =>
        (employeeData.filter fun (p : Int × DailySummary) =>
          decide (yearOf p.1 = yearOf reportDate) &&
          decide (monthOf p.1 = monthOf reportDate)).map Prod.snd
    | .week =>
        (employeeData.filter fun (p : Int × DailySummary) =>
          decide ((getWeekRange reportDate).1 * msPerDay ≤ p.1 * msPerDay) &&
          decide (p.1 * msPerDay ≤
            (getWeekRange reportDate).2 * msPerDay + (msPerDay - 1))).map Prod.snd
    | .day =>
        match employeeData.lookup reportDate with
        | some summary => [summary]
        | none => []
  daysInRange.insertionSort summaryLe

/-- C4.  The report window selector (src/index.tsx lines 212-221 and
445-478): for week granularity the window starts at the Sunday (day offset
0) of the reference date's week and runs seven days inclusive; the selector
returns exactly the summaries whose date key lies in
`[weekStart, weekStart + 6]` — a summary dated exactly on `weekStart + 6`
is included and one dated a day later is excluded — and for every
granularity the output is sorted ascending by date regardless of the input
map's iteration order. -/
theorem report_window_spec (employeeData : List (Int × DailySummary))
    (reportDate : Int)
    (hkey : ∀ p ∈ employeeData, (p.2).date = p.1) :
    (dayOfWeek (getWeekRange reportDate).1 = 0 ∧
      (getWeekRange reportDate).1 ≤ reportDate ∧
      reportDate ≤ (getWeekRange reportDate).1 + 6 ∧
      (getWeekRange reportDate).2 = (getWeekRange reportDate).1 + 6) ∧
    (∀ s, s ∈ reportDataForEmployee employeeData ReportViewType.week reportDate ↔
        ∃ k, (k, s) ∈ employeeData ∧
          (getWeekRange reportDate).1 ≤ k ∧
          k ≤ (getWeekRange reportDate).1 + 6) ∧
    (∀ k s, (k, s) ∈ employeeData → k = (getWeekRange reportDate).1 + 6 →
        s ∈ reportDataForEmployee employeeData ReportViewType.week reportDate) ∧
    (∀ k s, (k, s) ∈ employeeData → k = (getWeekRange reportDate).1 + 7 →
        s ∉ reportDataForEmployee employeeData ReportViewType.week reportDate) ∧
    (∀ viewType, List.Sorted summaryLe
        (reportDataForEmployee employeeData viewType reportDate)) := by
  have hweek : ∀ s,
      s ∈ reportDataForEmployee employeeData ReportViewType.week reportDate ↔
        ∃ k, (k, s) ∈ employeeData ∧
          (getWeekRange reportDate).1 ≤ k ∧
          k ≤ (getWeekRange reportDate).1 + 6 := by
    intro s
    have hrep : reportDataForEmployee employeeData ReportViewType.week reportDate =
        ((employeeData.filter fun p =>
          decide ((getWeekRange reportDate).1 * msPerDay ≤ p.1 * msPerDay) &&
          decide (p.1 * msPerDay ≤
            (getWeekRange reportDate).2 * msPerDay + (msPerDay - 1))).map
          Prod.snd).insertionSort summaryLe := rfl
    rw [hrep, List.mem_insertionSort, List.mem_map]
    constructor
    · rintro ⟨p, hp, rfl⟩
      obtain ⟨hpd, hcond⟩ := List.mem_filter.mp hp
      simp only [Bool.and_eq_true, decide_eq_true_eq] at hcond
      refine ⟨p.1, by simpa using hpd, ?_, ?_⟩
      · have h2 : (getWeekRange reportDate).2 = (getWeekRange reportDate).1 + 6 := rfl
        rw [h2] at hcond
        simp only [msPerDay] at hcond
        omega
      · have h2 : (getWeekRange reportDate).2 = (getWeekRange reportDate).1 + 6 := rfl
        rw [h2] at hcond
        simp only [msPerDay] at hcond
        omega
    · rintro ⟨k, hk, h1, h2⟩
      refine ⟨(k, s), List.mem_filter.mpr ⟨hk, ?_⟩, rfl⟩
      simp only [Bool.and_eq_true, decide_eq_true_eq]
      have hgr : (getWeekRange reportDate).2 = (getWeekRange reportDate).1 + 6 := rfl
      rw [hgr]
      simp only [msPerDay]
      constructor <;> omega
  refine ⟨?_, hweek, ?_, ?_, ?_⟩
  · refine ⟨?_, ?_, ?_, rfl⟩ <;> simp only [getWeekRange, dayOfWeek] <;> omega
  · intro k s hk hb
    exact (hweek s).mpr ⟨k, hk, by omega, by omega⟩
  · intro k s hk hb hmem
    obtain ⟨k2, hk2, hk2a, hk2b⟩ := (hweek s).mp hmem
    have h1 : s.date = k2 := hkey (k2, s) hk2
    have h2 : s.date = k := hkey (k, s) hk
    omega
  · intro viewType
    cases viewType <;> exact List.sorted_insertionSort summaryLe _

/-- Witness for C4 at the reference day 4 (a Monday; its week starts on
day 3, a Sunday): the summary dated on the last week day 9 is included,
one dated on day 10 is excluded. -/
theorem report_window_spec_witness :
    (⟨9, none, none, 0, [], []⟩ : DailySummary) ∈
      reportDataForEmployee
        [(3, ⟨3, none, none, 0, [], []⟩), (9, ⟨9, none, none, 0, [], []⟩),
         (10, ⟨10, none, none, 0, [], []⟩)] ReportViewType.week 4 ∧
    (⟨10, none, none, 0, [], []⟩ : DailySummary) ∉
      reportDataForEmployee
        [(3, ⟨3, none, none, 0, [], []⟩), (9, ⟨9, none, none, 0, [], []⟩),
         (10, ⟨10, none, none, 0, [], []⟩)] ReportViewType.week 4 := by
  have h := report_window_spec
    [(3, ⟨3, none, none, 0, [], []⟩), (9, ⟨9, none, none, 0, [], []⟩),
     (10, ⟨10, none, none, 0, [], []⟩)] 4
    (by intro p hp; fin_cases hp <;> rfl)
  refine ⟨?_, ?_⟩
  · exact h.2.2.1 9 ⟨9, none, none, 0, [], []⟩ (by simp) (by decide)
  · exact h.2.2.2.1 10 ⟨10, none, none, 0, [], []⟩ (by simp) (by decide)

/-- The sync status (src/index.tsx `SyncStatus`). -/
inductive SyncStatus where
  | connecting
  | connected
  | syncing
  | error
  | offline
deriving DecidableEq, Repr

/-- The kind of a user notice passed to `showAlert`. -/
inductive AlertKind where
  | success
  | error
deriving DecidableEq, Repr

/-- One user notice (message and kind) as issued by `showAlert`. -/
structure Alert where
  message : String
  kind : AlertKind
deriving DecidableEq, Repr

/-- The engine-relevant React state of `App` (src/index.tsx lines 225-233):
the cached projection (raw log data, roster, admin passphrase), the sync
status, the surfaced notices in order, and the in-flight-write flag
`isUpdating`.  Presentation-only state (page, input fields, report
selections) is not modelled. -/
structure AppState where
  rawLogData : RawLogData
  employees : List String
  adminPassword : String
  syncStatus : SyncStatus
  alerts : List Alert
  isUpdating : Bool
deriving DecidableEq, Repr

/-- `showAlert` (src/index.tsx lines 250-253): surface a notice. -/
def showAlert (st : AppState) (message : String) (kind : AlertKind) : AppState :=
  { st with alerts := st.alerts ++ [⟨message, kind⟩] }

/-- The data returned by one successful `fetchAndProcessData` call. -/
structure FetchResult where
  rawLogData : RawLogData
  employees : List String
  adminPassword : String
deriving DecidableEq, Repr

/-- `backgroundSync` (src/index.tsx lines 262-275), with the remote fetch
outcome as a parameter (`none` models a thrown fetch error).  Returns the
new state together with whether a remote fetch was initiated.  When
`isUpdating` is set the function returns immediately, before even touching
the sync status. -/
def backgroundSync (fetchOutcome : Option FetchResult) (st : AppState) :
    AppState × Bool :=
  if st.isUpdating then (st, false)
  else
    let st2 := { st with syncStatus := SyncStatus.syncing }
    match fetchOutcome with
    | some r =>
        ({ st2 with
            rawLogData := r.rawLogData
            employees := r.employees
            adminPassword := r.adminPassword
            syncStatus := SyncStatus.connected },
          true)
    | none => ({ st2 with syncStatus := SyncStatus.error }, true)

/-- C6.  Mutual exclusion of refresh and write (src/index.tsx line 263):
whenever `isUpdating` is set, invoking the background refresh leaves the
entire cached projection — raw log data, roster, admin passphrase — and
the sync status completely unchanged, and no remote fetch is initiated;
the cycle is simply dropped, not queued. -/
theorem background_sync_mutual_exclusion (fetchOutcome : Option FetchResult)
    (st : AppState) (h : st.isUpdating = true) :
    backgroundSync fetchOutcome st = (st, false) ∧
    (backgroundSync fetchOutcome st).1.rawLogData = st.rawLogData ∧
    (backgroundSync fetchOutcome st).1.employees = st.employees ∧
    (backgroundSync fetchOutcome st).1.adminPassword = st.adminPassword ∧
    (backgroundSync fetchOutcome st).1.syncStatus = st.syncStatus ∧
    (backgroundSync fetchOutcome st).2 = false := by
  have heq : backgroundSync fetchOutcome st = (st, false) := by
    unfold backgroundSync
    rw [if_pos h]
  exact ⟨heq, by rw [heq], by rw [heq], by rw [heq], by rw [heq], by rw [heq]⟩

/-- Witness for C6 at a concrete state with the in-flight-write flag set:
the refresh is a no-op and no fetch starts. -/
theorem background_sync_mutual_exclusion_witness :
    backgroundSync (some ⟨[], ["B"], "pw"⟩)
        ⟨[], ["A"], "1234", SyncStatus.connected, [], true⟩ =
      (⟨[], ["A"], "1234", SyncStatus.connected, [], true⟩, false) :=
  (background_sync_mutual_exclusion (some ⟨[], ["B"], "pw"⟩)
    ⟨[], ["A"], "1234", SyncStatus.connected, [], true⟩ rfl).1

/-- The value found in the `ok` field of a parsed response body; the
comparison in the source is strict (`=== true`). -/
inductive JsonVal where
  | boolTrue
  | boolFalse
  | nullVal
  | otherVal
deriving DecidableEq, Repr

/-- The parsed shape of the write response body: `response.json()` throws
on a malformed body, or parses to a falsy value such as `null`, or parses
to an object with or without an `ok` field. -/
inductive BodyParse where
  | malformed
  | jsonNull
  | obj (okField : Option JsonVal)
deriving DecidableEq, Repr

/-- The outcome of the HTTP POST of `recordToSheet`: a transport failure
(`fetch` rejects) or a response carrying the `response.ok` success flag
and a body. -/
inductive HttpOutcome where
  | transportError
  | response (okStatus : Bool) (body : BodyParse)
deriving DecidableEq, Repr

/-- `recordToSheet` (src/index.tsx lines 161-191) with the HTTP outcome as
a parameter: `false` on a transport failure (caught), a non-success status,
a body that fails to parse (the thrown `json()` error is caught), a falsy
parsed body, or a parsed body whose `ok` field is not exactly `true`;
`true` only for a success status with body `{ok: true}`.  The function is
total — every branch returns a boolean — and the row payload built from
the arguments does not influence the result. -/
def recordToSheet (employee action timestamp date time : String)
    (http : HttpOutcome) : Bool :=
  match http with
  | .transportError => false
  | .response okStatus body =>
      if !okStatus then false
      else
        match body with
        | .malformed => false
        | .jsonNull => false
        | .obj okField =>
            match okField with
            | some JsonVal.boolTrue => true
            | _ => false

/-- C7.  The remote write (src/index.tsx lines 161-191) returns a boolean
and never throws: it returns `true` exactly when the HTTP response has a
success status and the body parses to JSON whose `ok` field is exactly
`true`; a transport failure, a non-success status, a well-formed body with
`ok` not equal to `true`, and a malformed body all yield `false`, with no
distinction visible to the caller. -/
theorem record_to_sheet_spec (employee action timestamp date time : String) :
    (∀ http, recordToSheet employee action timestamp date time http = true ↔
        http = HttpOutcome.response true (BodyParse.obj (some JsonVal.boolTrue))) ∧
    recordToSheet employee action timestamp date time
      HttpOutcome.transportError = false ∧
    (∀ body, recordToSheet employee action timestamp date time
        (HttpOutcome.response false body) = false) ∧
    recordToSheet employee action timestamp date time
      (HttpOutcome.response true BodyParse.malformed) = false ∧
    recordToSheet employee action timestamp date time
      (HttpOutcome.response true BodyParse.jsonNull) = false ∧
    (∀ okField, okField ≠ some JsonVal.boolTrue →
        recordToSheet employee action timestamp date time
          (HttpOutcome.response true (BodyParse.obj okField)) = false) := by
  refine ⟨?_, rfl, fun body => by cases body <;> rfl, rfl, rfl, ?_⟩
  · intro http
    cases http with
    | transportError => simp [recordToSheet]
    | response okStatus body =>
        cases okStatus with
        | false => cases body <;> simp [recordToSheet]
        | true =>
            cases body with
            | malformed => simp [recordToSheet]
            | jsonNull => simp [recordToSheet]
            | obj okField =>
                cases okField with
                | none => simp [recordToSheet]
                | some v => cases v <;> simp [recordToSheet]
  · intro okField h
    cases okField with
    | none => rfl
    | some v => cases v <;> first | exact absurd rfl h | rfl

/-- Witness for C7 at a success status carrying `{ok: false}`: the caller
sees plain `false`. -/
theorem record_to_sheet_spec_witness :
    recordToSheet "A" "checkin" "t" "d" "h"
      (HttpOutcome.response true (BodyParse.obj (some JsonVal.boolFalse))) = false :=
  (record_to_sheet_spec "A" "checkin" "t" "d" "h").2.2.2.2.2
    (some JsonVal.boolFalse) (by decide)

/-- `String.prototype.trim`: strip leading and trailing whitespace (an
executable model of the builtin used by `handleAddEmployee`). -/
def trimString (s : String) : String :=
  ⟨((s.toList.dropWhile Char.isWhitespace).reverse.dropWhile Char.isWhitespace).reverse⟩

/-- The outcome of the remote append attempted inside a roster mutation:
`recordToSheet` resolves `true` or `false`, or the awaited block throws. -/
inductive WriteOutcome where
  | success
  | failure
  | thrown
deriving DecidableEq, Repr

/-- The observable run of one optimistic roster mutation: the state at the
moment the remote append starts (or the final state when the guards return
early), whether the remote append was attempted, and the final state. -/
structure MutationRun where
  preRemote : AppState
  attempted : Bool
  final : AppState
deriving DecidableEq, Repr

/-- The steps of `handleAction` (src/index.tsx lines 516-541) around the
remote write: set the status to `Syncing`, attempt the write, then set
`Connected` on success, or set `Error` and surface a notice on failure; a
thrown await propagates to the caller with the state as at the throw. -/
def handleActionRun (outcome : WriteOutcome) (st : AppState) : MutationRun :=
  let pre := { st with syncStatus := SyncStatus.syncing }
  match outcome with
  | .success => ⟨pre, true, { pre with syncStatus := SyncStatus.connected }⟩
  | .failure =>
      ⟨pre, true,
        showAlert { pre with syncStatus := SyncStatus.error }
          "הרישום נכשל. בדוק חיבור לאינטרנט." AlertKind.error⟩
  | .thrown => ⟨pre, true, pre⟩

/-- `handleAddEmployee` (src/index.tsx lines 561-593): trim and validate
the name, apply the sorted optimistic roster locally, surface a success
notice, raise `isUpdating`, attempt the remote append, and on a failed or
thrown write surface a failure notice and restore the pre-mutation roster;
`isUpdating` is cleared in the `finally`.  (`setNewEmployeeName` is
presentation state and not modelled.) -/
def handleAddEmployee (le : String → String → Prop) [DecidableRel le]
    (newEmployeeName : String) (outcome : WriteOutcome)
    (st : AppState) : MutationRun :=
  let trimmedName := trimString newEmployeeName
  if trimmedName = "" then
    let st2 := showAlert st "אנא הזן שם עובד" AlertKind.error
    ⟨st2, false, st2⟩
  else if st.employees.contains trimmedName then
    let st2 := showAlert st "עובד בשם זה כבר קיים" AlertKind.error
    ⟨st2, false, st2⟩
  else
    let originalEmployees := st.employees
    let newEmployeeList := (st.employees ++ [trimmedName]).insertionSort le
    let st2 := { st with employees := newEmployeeList }
    let st3 := showAlert st2 ("העובד " ++ trimmedName ++ " נוסף! מסנכרן ברקע...")
      AlertKind.success
    let st4 := { st3 with isUpdating := true }
    let run := handleActionRun outcome st4
    match outcome with
    | .success => ⟨run.preRemote, true, { run.final with isUpdating := false }⟩
    | .failure =>
        let st5 := showAlert run.final ("הוספת העובד " ++ trimmedName ++ " נכשלה.")
          AlertKind.error
        let st6 := { st5 with employees := originalEmployees }
        ⟨run.preRemote, true, { st6 with isUpdating := false }⟩
    | .thrown =>
        let st5 := showAlert run.final "שגיאה קריטית. החזרת הרשימה לקדמותה."
          AlertKind.error
        let st6 := { st5 with employees := originalEmployees }
        ⟨run.preRemote, true, { st6 with isUpdating := false }⟩

/-- `handleRemoveEmployee` (src/index.tsx lines 622-656): validate the
selection, apply the filtered optimistic roster locally, surface a success
notice, raise `isUpdating`, attempt the remote append, and on a failed or
thrown write surface a failure notice and restore the pre-mutation roster;
`isUpdating` is cleared in the `finally`.  (`setRemoveEmployeeSelect` is
presentation state and not modelled.) -/
def handleRemoveEmployee (employeeToRemove : String) (outcome : WriteOutcome)
    (st : AppState) : MutationRun :=
  if employeeToRemove = "" then
    let st2 := showAlert st "אנא בחר עובד להסרה" AlertKind.error
    ⟨st2, false, st2⟩
  else
    let originalEmployees := st.employees
    let newEmployeeList := st.employees.filter fun e => e != employeeToRemove
    let st2 := { st with employees := newEmployeeList }
    let st3 := showAlert st2 ("העובד " ++ employeeToRemove ++ " הוסר בהצלחה!")
      AlertKind.success
    let st4 := { st3 with isUpdating := true }
    let run := handleActionRun outcome st4
    match outcome with
    | .success => ⟨run.preRemote, true, { run.final with isUpdating := false }⟩
    | .failure =>
        let st5 := showAlert run.final
          ("שגיאת סנכרון. החזרת " ++ employeeToRemove ++ " לרשימה.") AlertKind.error
        let st6 := { st5 with employees := originalEmployees }
        ⟨run.preRemote, true, { st6 with isUpdating := false }⟩
    | .thrown =>
        let st5 := showAlert run.final
          ("שגיאה קריטית. החזרת " ++ employeeToRemove ++ " לרשימה.") AlertKind.error
        let st6 := { st5 with employees := originalEmployees }
        ⟨run.preRemote, true, { st6 with isUpdating := false }⟩

/-- C5.  Optimistic roster mutations (src/index.tsx lines 561-593 and
622-656): past the guards, the new roster is applied locally before the
remote append is attempted (the state at the start of the remote write
already carries it); if the remote write fails or throws, the local roster
is restored to the exact pre-mutation array — same membership, same
order — and a failure notice is surfaced; if the remote write succeeds,
the optimistic roster is left in place unchanged. -/
theorem optimistic_rollback_spec (le : String → String → Prop) [DecidableRel le]
    (name emp : String) (outcome : WriteOutcome) (st : AppState)
    (hname : trimString name ≠ "")
    (hdup : st.employees.contains (trimString name) = false)
    (hemp : emp ≠ "") :
    ((handleAddEmployee le name outcome st).attempted = true ∧
      (handleAddEmployee le name outcome st).preRemote.employees =
        (st.employees ++ [trimString name]).insertionSort le ∧
      (outcome = WriteOutcome.success →
        (handleAddEmployee le name outcome st).final.employees =
          (handleAddEmployee le name outcome st).preRemote.employees) ∧
      (outcome = WriteOutcome.failure →
        (handleAddEmployee le name outcome st).final.employees = st.employees ∧
        (handleAddEmployee le name outcome st).final.alerts =
          (handleAddEmployee le name outcome st).preRemote.alerts ++
            [⟨"הרישום נכשל. בדוק חיבור לאינטרנט.", AlertKind.error⟩,
             ⟨"הוספת העובד " ++ trimString name ++ " נכשלה.", AlertKind.error⟩]) ∧
      (outcome = WriteOutcome.thrown →
        (handleAddEmployee le name outcome st).final.employees = st.employees ∧
        (handleAddEmployee le name outcome st).final.alerts =
          (handleAddEmployee le name outcome st).preRemote.alerts ++
            [⟨"שגיאה קריטית. החזרת הרשימה לקדמותה.", AlertKind.error⟩])) ∧
    ((handleRemoveEmployee emp outcome st).attempted = true ∧
      (handleRemoveEmployee emp outcome st).preRemote.employees =
        st.employees.filter (fun e => e != emp) ∧
      (outcome = WriteOutcome.success →
        (handleRemoveEmployee emp outcome st).final.employees =
          (handleRemoveEmployee emp outcome st).preRemote.employees) ∧
      (outcome = WriteOutcome.failure →
        (handleRemoveEmployee emp outcome st).final.employees = st.employees ∧
        (handleRemoveEmployee emp outcome st).final.alerts =
          (handleRemoveEmployee emp outcome st).preRemote.alerts ++
            [⟨"הרישום נכשל. בדוק חיבור לאינטרנט.", AlertKind.error⟩,
             ⟨"שגיאת סנכרון. החזרת " ++ emp ++ " לרשימה.", AlertKind.error⟩]) ∧
      (outcome = WriteOutcome.thrown →
        (handleRemoveEmployee emp outcome st).final.employees = st.employees ∧
        (handleRemoveEmployee emp outcome st).final.alerts =
          (handleRemoveEmployee emp outcome st).preRemote.alerts ++
            [⟨"שגיאה קריטית. החזרת " ++ emp ++ " לרשימה.", AlertKind.error⟩])) := by
  have hmem : trimString name ∉ st.employees := by simpa using hdup
  constructor
  · cases outcome <;>
      simp [handleAddEmployee, handleActionRun, showAlert, hname, hmem]
  · cases outcome <;>
      simp [handleRemoveEmployee, handleActionRun, showAlert, hemp]

/-- Witness for C5 at a one-name roster: adding `"B"` with a failed remote
write restores the original roster, with the names in the original order. -/
theorem optimistic_rollback_spec_witness :
    (handleAddEmployee leAny "B" WriteOutcome.failure
        ⟨[], ["A"], "1234", SyncStatus.connected, [], false⟩).final.employees =
      ["A"] :=
  ((optimistic_rollback_spec leAny "B" "A" WriteOutcome.failure
      ⟨[], ["A"], "1234", SyncStatus.connected, [], false⟩
      (by decide) (by decide) (by decide)).1.2.2.2.1 rfl).1

end Clockwork
